import Mathlib

/-
Verification of the local/remote reconciliation engine of keep-exporter
(src/keep_exporter/export.py) against its natural-language specification.

The embedding models the filesystem as an association list from paths
(component lists, relative to the output root) to file data, and translates
the reconciliation functions of export.py one by one:
index_existing_files, build_note_unique_path, try_rename_note,
download_media, delete_local_only_files and the per-note loop of main.

External collaborators (gkeepapi network access, pathvalidate, strftime,
mimetypes) are modelled as data or as simple pure functions, documented at
each definition.  Filesystem and network failures are modelled by an
environment of Boolean failure oracles; an uncaught Python exception is
modelled by an Option-valued run returning none.
-/

namespace KeepExporter

/-- A file path relative to the output root, as a list of components.
`["a.md"]` is a file directly in the root; `["media", "id", "x.jpg"]`
is nested.  Models `pathlib.Path` values under the output directory. -/
abbrev Path := List String

/-- `file.name`: the final path component. -/
def pathName (p : Path) : String := p.getLastD ""

/-- `file.parent.name`: the name of the directory holding the file.  For a
file directly in the output root this is the base name of the root
directory itself, which the model passes in as `rootName`. -/
def parentName (rootName : String) (p : Path) : String :=
  p.dropLast.getLastD rootName

/-- Python `str.split` on a single dot: splits on every occurrence, keeping
empty segments, and maps the empty string to `[[]]`. -/
def pySplitDot : List Char → List (List Char)
  | [] => [[]]
  | c :: rest =>
    let r := pySplitDot rest
    if c = '.' then [] :: r
    else
      match r with
      | h :: t => (c :: h) :: t
      | [] => [[c]]

/-- Python `".".join(parts)`. -/
def joinDot (l : List (List Char)) : String :=
  String.mk (List.intercalate ['.'] l)

/-- `".".join(file.name.split(".")[0:2])` — export.py line 271: the media
identifier recovered from a media file name during the index scan. -/
def recoverMediaId (name : String) : String :=
  joinDot ((pySplitDot name.data).take 2)

/-- `file.name.endswith(".md")` — export.py line 232. -/
def endsWithMd (s : String) : Bool :=
  s.data.reverse.take 3 = ['d', 'm', '.']

/-- One decimal digit character, as Python prints it. -/
def digitChar : Nat → Char
  | 0 => '0' | 1 => '1' | 2 => '2' | 3 => '3' | 4 => '4'
  | 5 => '5' | 6 => '6' | 7 => '7' | 8 => '8' | _ => '9'

/-- Python `str(n)` for a natural number: decimal digits. -/
def natStr (n : Nat) : String :=
  if n = 0 then "0"
  else String.mk (((Nat.digits 10 n).reverse).map digitChar)

/-- Characters removed by filename sanitization. -/
def invalidFilenameChar (c : Char) : Bool :=
  c = '\\' || c = '/' || c = ':' || c = '*' || c = '?' ||
  c = '"' || c = '<' || c = '>' || c = '|' || c.toNat < 32

/-- Model of the external `pathvalidate.sanitize_filename(s, max_len)`
collaborator: drop characters that are unsafe in a filename and truncate
to `maxLen` characters. -/
def sanitize_filename (s : String) (maxLen : Nat) : String :=
  String.mk ((s.data.filter (fun c => !invalidFilenameChar c)).take maxLen)

/-- Python whitespace for `str.strip`. -/
def pySpace (c : Char) : Bool :=
  c = ' ' || c = '\t' || c = '\n' || c = '\r' || c = '\x0b' || c = '\x0c'

/-- Python `str.strip()`. -/
def pyStrip (s : String) : String :=
  String.mk (((s.data.dropWhile pySpace).reverse.dropWhile pySpace).reverse)

/-- A media blob attached to a remote note.  `ext` models the extension
inferred by the external `mimetypes` collaborator from the blob's MIME
type (export.py lines 71-83); `byteSize` models `blob.byte_size`, absent
for drawings (the `hasattr` check at line 100). -/
structure RemoteMedia where
  id : String
  ext : String
  byteSize : Option Nat
deriving DecidableEq, Repr

/-- A note in the remote Google Keep collection.  `created` and `updated`
model the note's timestamps as exact integers; `title` may be empty. -/
structure RemoteNote where
  id : String
  title : String
  created : Int
  updated : Int
  images : List RemoteMedia
  drawings : List RemoteMedia
  audio : List RemoteMedia
deriving DecidableEq, Repr

/-- `all_note_media` — export.py line 50: the media blobs of a note. -/
def all_note_media (note : RemoteNote) : List RemoteMedia :=
  note.images ++ note.drawings ++ note.audio

/-- Content of a local file, as far as the scanner can observe it.
`md gid updated` is a markdown file whose frontmatter block parses and
contains the given `google_keep_id` and `timestamps.updated` fields (either
may be absent).  `badParse` is a markdown-named file on which
`frontmatter.load` raises a non-IOError exception (malformed YAML or a
non-text file).  `unreadable` is a file whose `open` raises `IOError`.
`bytes size` is raw (media) content of the given size. -/
inductive FileData where
  | md (gid : Option String) (updated : Option Int)
  | badParse
  | unreadable
  | bytes (size : Nat)
deriving DecidableEq, Repr

/-- The filesystem under the output root: files in directory-traversal
order.  `directory.rglob` enumerates this list; creating a file appends it,
overwriting keeps its position. -/
abbrev Disk := List (Path × FileData)

/-- `path.exists()`. -/
def dexists (d : Disk) (p : Path) : Bool :=
  d.any (fun e => e.1 = p)

/-- Data stored at a path, if any. -/
def dget (d : Disk) (p : Path) : Option FileData :=
  (d.find? (fun e => e.1 = p)).map (fun e => e.2)

/-- Write `v` at `p`: overwrite in place if the file exists, else create
(appended at the end of traversal order). -/
def dupsert (d : Disk) (p : Path) (v : FileData) : Disk :=
  if dexists d p then d.map (fun e => if e.1 = p then (p, v) else e)
  else d ++ [(p, v)]

/-- `path.unlink()`. -/
def dunlink (d : Disk) (p : Path) : Disk :=
  d.filter (fun e => e.1 ≠ p)

/-- `path.rename(target)`: move the data at `old` to `new_`, the moved
file re-appearing at the end of traversal order. -/
def drename (d : Disk) (old new_ : Path) : Disk :=
  match dget d old with
  | some v => dunlink (dunlink d old) new_ ++ [(new_, v)]
  | none => d

/-- `LocalMedia` — export.py line 185. -/
structure LocalMedia where
  path : Path
  google_keep_note_id : String
  google_keep_media_id : String
deriving DecidableEq, Repr

/-- `LocalNote` — export.py line 195. -/
structure LocalNote where
  google_keep_id : String
  path : Option Path
  timestamp_updated : Option Int
  local_media : List (String × LocalMedia)
deriving DecidableEq, Repr

/-- `LocalNote(google_keep_id)` with all optional fields defaulted. -/
def LocalNote.ofId (g : String) : LocalNote := ⟨g, none, none, []⟩

/-- Python dict lookup on an association list. -/
def alookup {α : Type} (m : List (String × α)) (k : String) : Option α :=
  (m.find? (fun e => e.1 = k)).map (fun e => e.2)

/-- Python dict assignment `m[k] = v`: update in place, insert at the end
if absent. -/
def aupsert {α : Type} (m : List (String × α)) (k : String) (v : α) :
    List (String × α) :=
  if (alookup m k).isSome then m.map (fun e => if e.1 = k then (k, v) else e)
  else m ++ [(k, v)]

/-- Python `m.setdefault(k, v)`. -/
def asetdefault {α : Type} (m : List (String × α)) (k : String) (v : α) :
    List (String × α) :=
  if (alookup m k).isSome then m else m ++ [(k, v)]

/-- Mutate the value stored at `k` in place (no effect if absent). -/
def aupdate {α : Type} (m : List (String × α)) (k : String) (f : α → α) :
    List (String × α) :=
  m.map (fun e => if e.1 = k then (k, f e.2) else e)

/-- The in-memory index: `Dict[str, LocalNote]` keyed by remote id. -/
abbrev Index := List (String × LocalNote)

/-- Aggregate counts echoed by `index_existing_files` (line 278). -/
structure Summary where
  keep_notes : Nat
  unknown_notes : Nat
  errors : Nat
  media : Nat
deriving DecidableEq, Repr

/-- Initial summary. -/
def Summary.init : Summary := ⟨0, 0, 0, 0⟩

/-- One file of the scan loop of `index_existing_files` (export.py lines
227-276), faithful to the source: on `IOError` the handler executes
`errors = 0` (line 260) — an assignment, not an increment — and continues;
a non-IOError parse failure, or a missing `timestamps.updated` value
(which makes `datetime.fromtimestamp(None)` raise `TypeError` at line
250), is uncaught and aborts the scan (`none`). -/
def scanStep (rootName : String) (st : Index × Summary) (e : Path × FileData) :
    Option (Index × Summary) :=
  let idx := st.1
  let s := st.2
  let name := pathName e.1
  if endsWithMd name then
    match e.2 with
    | .md gid upd =>
      match gid with
      | some g =>
        let s := { s with keep_notes := s.keep_notes + 1 }
        let idx := asetdefault idx g (LocalNote.ofId g)
        match upd with
        | none => none
        | some u =>
          some (aupdate idx g
              (fun L => { L with timestamp_updated := some u, path := some e.1 }), s)
      | none => some (idx, { s with unknown_notes := s.unknown_notes + 1 })
    | .badParse => none
    | .bytes _ => none
    | .unreadable => some (idx, { s with errors := 0 })
  else
    let s := { s with media := s.media + 1 }
    let g := parentName rootName e.1
    let mid := recoverMediaId name
    let idx := asetdefault idx g (LocalNote.ofId g)
    some (aupdate idx g
        (fun L => { L with local_media := aupsert L.local_media mid ⟨e.1, g, mid⟩ }), s)

/-- The scan loop over the traversal list. -/
def scanGo (rootName : String) (st : Index × Summary) :
    List (Path × FileData) → Option (Index × Summary)
  | [] => some st
  | e :: rest =>
    match scanStep rootName st e with
    | none => none
    | some st' => scanGo rootName st' rest

/-- `index_existing_files` — export.py line 213. -/
def index_existing_files (rootName : String) (d : Disk) :
    Option (Index × Summary) :=
  scanGo rootName ([], Summary.init) d

/-- Failure oracles for the environment: which filesystem renames fail,
which note-file writes fail, and which media downloads fail. -/
structure Env where
  failRename : Path → Path → Bool
  failWrite : Path → Bool
  failDownload : String → Bool

/-- The environment in which every operation succeeds. -/
def benignEnv : Env := ⟨fun _ _ => false, fun _ => false, fun _ => false⟩

/-- The configuration values consumed by the core.  `date_format` models
`created.strftime(date_format)` as a function from the created timestamp
to the formatted date string. -/
structure Config where
  header : Bool
  delete_local : Bool
  rename_local : Bool
  skip_existing_media : Bool
  date_format : Int → String

/-- The sanitized, truncated filename body `"<date> - <title>"` of
`build_note_unique_path` (export.py lines 310-315). -/
def canonicalStem (dateFormat : Int → String) (note : RemoteNote) : String :=
  let title := if (pyStrip note.title).data.length = 0 then "untitled"
               else pyStrip note.title
  sanitize_filename (dateFormat note.created ++ " - " ++ title) 135

/-- The dedupe-suffixed filename `f"{stem}.{note.id}.{k}.md"` (line 339). -/
def dedupeName (stem noteId : String) (k : Nat) : String :=
  stem ++ "." ++ noteId ++ "." ++ natStr k ++ ".md"

/-- The `while target_path.exists()` loop of `build_note_unique_path`
(lines 337-341), with an explicit fuel bound on the number of iterations;
`dedupeLoop_result_fresh` below shows `d.length + 1` iterations always
reach a path that is free on disk, so the fuel never runs out where the
function is used. -/
def dedupeLoop (d : Disk) (stem noteId : String) :
    Nat → Nat → Path → Path
  | 0, _, target => target
  | fuel + 1, k, target =>
    if dexists d target then
      dedupeLoop d stem noteId fuel (k + 1) [dedupeName stem noteId k]
    else target

/-- `build_note_unique_path` — export.py line 304.  Pure: decides a path
from the note, the index and a snapshot of the disk, mutating nothing. -/
def build_note_unique_path (note : RemoteNote) (dateFormat : Int → String)
    (local_index : Index) (d : Disk) : Path :=
  let stem := canonicalStem dateFormat note
  let target : Path := [stem ++ ".md"]
  let local_path := (alookup local_index note.id).bind (fun L => L.path)
  match local_path with
  | some lp =>
    if lp = target then lp
    else if dexists d target then lp
    else dedupeLoop d stem note.id (d.length + 1) 1 target
  | none => dedupeLoop d stem note.id (d.length + 1) 1 target

/-- `try_rename_note` — export.py line 285.  Returns the new disk, the
path the note now lives at, and the rename that was performed, if any.
Any failure (the oracle, or the old path not existing) is caught and the
old path returned; the `LocalNote` record itself is not touched, exactly
as in the source. -/
def try_rename_note (env : Env) (note : LocalNote) (target : Path) (d : Disk) :
    Disk × Path × Option (Path × Path) :=
  match note.path with
  | none => (d, target, none)
  | some old =>
    if env.failRename old target || !dexists d old then (d, old, none)
    else (drename d old target, target, some (old, target))

/-- The media file path `mediapath / note.id / f"{sanitize_filename(media.id,135)}{ext}"`
(export.py lines 87-92), with `mediapath = root/"media"`. -/
def noteMediaFile (noteId : String) (m : RemoteMedia) : Path :=
  ["media", noteId, sanitize_filename m.id 135 ++ m.ext]

/-- `stat().st_size` of a file. -/
def fileSize : FileData → Nat
  | .bytes s => s
  | _ => 0

/-- One media blob of `download_media` (lines 67-116): skip the download
when `skip_existing` holds, the file exists and the sizes match; otherwise
download (which may fail, uncaught) and write the file. -/
def downloadOne (env : Env) (noteId : String) (skip_existing : Bool)
    (m : RemoteMedia) (st : Disk × List Path × Nat × List Path) :
    Option (Disk × List Path × Nat × List Path) :=
  let d := st.1
  let ret := st.2.1
  let count := st.2.2.1
  let writes := st.2.2.2
  let p := noteMediaFile noteId m
  if skip_existing && dexists d p &&
      m.byteSize.isSome && ((dget d p).map fileSize = m.byteSize) then
    some (d, ret ++ [p], count, writes)
  else if env.failDownload m.id then none
  else some (dupsert d p (.bytes (m.byteSize.getD 0)), ret ++ [p], count + 1,
             writes ++ [p])

/-- Fold of `downloadOne` over the note's media list. -/
def downloadGo (env : Env) (noteId : String) (skip_existing : Bool) :
    List RemoteMedia → Disk × List Path × Nat × List Path →
    Option (Disk × List Path × Nat × List Path)
  | [], st => some st
  | m :: rest, st =>
    match downloadOne env noteId skip_existing m st with
    | none => none
    | some st' => downloadGo env noteId skip_existing rest st'

/-- `download_media` — export.py line 53.  Returns the new disk, the list
of media paths handed to the renderer, the downloaded count, and the media
paths actually written. -/
def download_media (env : Env) (note : RemoteNote) (skip_existing : Bool)
    (d : Disk) : Option (Disk × List Path × Nat × List Path) :=
  downloadGo env note.id skip_existing (all_note_media note) (d, [], 0, [])

/-- The count-report lines echoed by `delete_local_only_files` when
deletion is disabled.  `mediaLocalOnly n` records the number the source
actually prints at line 401, which is `len(local_only_note_ids)`. -/
inductive Report where
  | notesLocalOnly (n : Nat)
  | mediaLocalOnly (n : Nat)
deriving DecidableEq, Repr

/-- `set(local_index.keys()).difference(set(keep_notes.keys()))` (line
357), as a deduplicated list in index order. -/
def local_only_note_ids (idx : Index) (keepNotes : List RemoteNote) :
    List String :=
  ((idx.map (fun e => e.1)).dedup).filter
    (fun g => !(keepNotes.map (fun n => n.id)).contains g)

/-- The set of `(note id, media id)` pairs known locally (lines 377-384),
keeping only pairs whose two components are truthy. -/
def localMediaPairs (idx : Index) : List (String × String) :=
  (((idx.map (fun e =>
      e.2.local_media.map (fun me =>
        (me.2.google_keep_note_id, me.2.google_keep_media_id)))).flatten).filter
    (fun pr => pr.1 ≠ "" ∧ pr.2 ≠ "")).dedup

/-- The set of `(note id, media id)` pairs known remotely (lines 386-393). -/
def keepMediaPairs (keepNotes : List RemoteNote) : List (String × String) :=
  (keepNotes.map (fun n => (all_note_media n).map (fun m => (n.id, m.id)))).flatten

/-- `local_only_media.difference(keep_media)` (line 395). -/
def localOnlyMediaPairs (idx : Index) (keepNotes : List RemoteNote) :
    List (String × String) :=
  (localMediaPairs idx).filter (fun pr => pr ∉ keepMediaPairs keepNotes)

/-- The note-deletion loop (lines 368-375): the deleted counter is
incremented for every local-only id, a file is unlinked only when the
entry has a path. -/
def deleteNotesGo (local_index : Index) (ids : List String) (d : Disk) :
    Nat × Disk × List Path :=
  ids.foldl (fun acc g =>
    let np := (alookup local_index g).bind (fun L => L.path)
    match np with
    | some p => (acc.1 + 1, dunlink acc.2.1 p, acc.2.2 ++ [p])
    | none => (acc.1 + 1, acc.2.1, acc.2.2)) (0, d, [])

/-- The media-deletion loop (lines 405-412).  The index lookups cannot
fail for pairs drawn from the index itself; the impossible branch is a
no-op. -/
def deleteMediaGo (local_index : Index) (prs : List (String × String))
    (d : Disk) : Nat × Disk × List Path :=
  prs.foldl (fun acc pr =>
    match (alookup local_index pr.1).bind
        (fun L => alookup L.local_media pr.2) with
    | some me => (acc.1 + 1, dunlink acc.2.1 me.path, acc.2.2 ++ [me.path])
    | none => acc) (0, d, [])

/-- `delete_local_only_files` — export.py line 346.  Returns the deleted
note and media counts, the new disk, the report lines, and the unlinked
paths. -/
def delete_local_only_files (local_index : Index)
    (keepNotes : List RemoteNote) (delete_local : Bool) (d : Disk) :
    Nat × Nat × Disk × List Report × List Path :=
  let lon := local_only_note_ids local_index keepNotes
  let step1 :=
    if lon.isEmpty then (0, d, ([] : List Report), ([] : List Path))
    else if !delete_local then (0, d, [Report.notesLocalOnly lon.length], [])
    else
      let r := deleteNotesGo local_index lon d
      (r.1, r.2.1, ([] : List Report), r.2.2)
  let dn := step1.1
  let d1 := step1.2.1
  let reps := step1.2.2.1
  let unl := step1.2.2.2
  let lom := localOnlyMediaPairs local_index keepNotes
  if lom.isEmpty then (dn, 0, d1, reps, unl)
  else if !delete_local then
    (dn, 0, d1, reps ++ [Report.mediaLocalOnly lon.length], unl)
  else
    let r := deleteMediaGo local_index lom d1
    (dn, r.1, r.2.1, reps, unl ++ r.2.2)

/-- Counters reported in the final summary lines of `main`. -/
structure Counters where
  skipped : Nat
  updated : Nat
  newNotes : Nat
  downloaded : Nat
  deletedNotes : Nat
  deletedMedia : Nat
deriving DecidableEq, Repr

/-- All-zero counters. -/
def Counters.init : Counters := ⟨0, 0, 0, 0, 0, 0⟩

/-- The filesystem mutations a run performs, in order. -/
structure RunLog where
  writes : List Path
  renames : List (Path × Path)
  unlinks : List Path
deriving DecidableEq, Repr

/-- The content `main` writes at the allocated path (lines 598-603): with
the header, a frontmatter block carrying the note id and updated
timestamp; without it, plain markdown carrying no metadata. -/
def noteFileData (cfg : Config) (note : RemoteNote) : FileData :=
  if cfg.header then .md (some note.id) (some note.updated) else .md none none

/-- The update/new tail of the per-note loop (export.py lines 593-603):
download the note's media, then write the note file at the resolved
target.  A download failure or a write failure is uncaught (`none`). -/
def materializeNote (cfg : Config) (env : Env) (note : RemoteNote)
    (target : Path) (d : Disk) (c : Counters) (log : RunLog) :
    Option (Disk × Counters × RunLog) :=
  match download_media env note cfg.skip_existing_media d with
  | none => none
  | some r =>
    if env.failWrite target then none
    else
      some (dupsert r.1 target (noteFileData cfg note),
            { c with downloaded := c.downloaded + r.2.2.1 },
            { log with writes := log.writes ++ r.2.2.2 ++ [target] })

/-- One iteration of the per-note loop of `main` (export.py lines
569-603): count new notes, allocate a target path, optionally rename,
then decide skip/update; on update or new, download media and write the
file.  A download or write failure is uncaught and aborts the run. -/
def processNote (cfg : Config) (env : Env) (local_index : Index)
    (note : RemoteNote) (st : Disk × Counters × RunLog) :
    Option (Disk × Counters × RunLog) :=
  let d := st.1
  let c := st.2.1
  let log := st.2.2
  let local_note := alookup local_index note.id
  let c := if local_note.isNone then { c with newNotes := c.newNotes + 1 } else c
  let target0 := build_note_unique_path note cfg.date_format local_index d
  let local_path := ((alookup local_index note.id).getD (LocalNote.ofId note.id)).path
  let afterRename : Disk × Path × RunLog :=
    match local_path with
    | some lp =>
      if cfg.rename_local && lp ≠ target0 then
        let ln := (alookup local_index note.id).getD (LocalNote.ofId note.id)
        let r := try_rename_note env ln target0 d
        (r.1, r.2.1, { log with renames := log.renames ++ r.2.2.toList })
      else (d, lp, log)
    | none => (d, target0, log)
  match local_note with
  | some ln =>
    if ln.timestamp_updated = some note.updated then
      some (afterRename.1, { c with skipped := c.skipped + 1 }, afterRename.2.2)
    else
      materializeNote cfg env note afterRename.2.1 afterRename.1
        { c with updated := c.updated + 1 } afterRename.2.2
  | none =>
    materializeNote cfg env note afterRename.2.1 afterRename.1 c afterRename.2.2

/-- The loop `for note in keep_notes.values()`. -/
def processAll (cfg : Config) (env : Env) (local_index : Index) :
    List RemoteNote → Disk × Counters × RunLog →
    Option (Disk × Counters × RunLog)
  | [], st => some st
  | n :: rest, st =>
    match processNote cfg env local_index n st with
    | none => none
    | some st' => processAll cfg env local_index rest st'

/-- `dict([(note.id, note) for note in keep.all()])` (line 561): Python
dict comprehension semantics, first-occurrence position, last value wins. -/
def dedupById (notes : List RemoteNote) : List RemoteNote :=
  (notes.foldl (fun acc n => aupsert acc n.id n)
    ([] : List (String × RemoteNote))).map (fun e => e.2)

/-- Everything a completed run produced. -/
structure RunResult where
  counters : Counters
  disk : Disk
  index : Index
  summary : Summary
  log : RunLog
  reports : List Report
deriving DecidableEq, Repr

/-- The sync pass of `main` (export.py lines 557-609): build the index,
reconcile deletions, then process every remote note.  `none` models the
process dying on an uncaught exception. -/
def main (cfg : Config) (env : Env) (rootName : String)
    (remote : List RemoteNote) (d0 : Disk) : Option RunResult :=
  match index_existing_files rootName d0 with
  | none => none
  | some (local_index, summary) =>
    let keepNotes := dedupById remote
    let del := delete_local_only_files local_index keepNotes cfg.delete_local d0
    let dn := del.1
    let dm := del.2.1
    let d := del.2.2.1
    let reports := del.2.2.2.1
    let unl := del.2.2.2.2
    match processAll cfg env local_index keepNotes
        (d, Counters.init, ⟨[], [], unl⟩) with
    | none => none
    | some (d, c, log) =>
      some ⟨{ c with deletedNotes := dn, deletedMedia := dm },
            d, local_index, summary, log, reports⟩

/-! ## Predicates used by the verification -/

/-- Option-orElse with controlled unfolding. -/
def ow {α : Type} (a b : Option α) : Option α :=
  match a with
  | some x => some x
  | none => b

/-- The identity (and updated timestamp) a file claims as far as the
index scan is concerned: only parseable markdown-named files with both a
`google_keep_id` and an updated timestamp claim an identity. -/
def claimInfo (g : String) (e : Path × FileData) : Option (Path × Int) :=
  if endsWithMd (pathName e.1) then
    match e.2 with
    | .md (some g') (some u) => if g' = g then some (e.1, u) else none
    | _ => none
  else none

/-- The last file on disk claiming identity `g`: the one whose path and
timestamp the scan records ("last one scanned wins"). -/
def winner (g : String) : Disk → Option (Path × Int)
  | [] => none
  | e :: rest => ow (winner g rest) (claimInfo g e)

/-- A file the scan survives: markdown-named files must parse with either
no id or an id plus a timestamp (otherwise the scan aborts). -/
def entryOk (e : Path × FileData) : Bool :=
  if endsWithMd (pathName e.1) then
    match e.2 with
    | .md (some _) none => false
    | .badParse => false
    | .bytes _ => false
    | _ => true
  else true

/-- The whole disk survives the scan. -/
def scanOkDisk (d : Disk) : Bool := d.all entryOk

/-- The path and timestamp the index records for `g`, when both are set. -/
def pathTs (idx : Index) (g : String) : Option (Path × Int) :=
  match alookup idx g with
  | some L =>
    match L.path, L.timestamp_updated with
    | some p, some u => some (p, u)
    | _, _ => none
  | none => none

/-- Scan-built indexes set `path` and `timestamp_updated` together. -/
def WfIdx (idx : Index) : Prop :=
  ∀ e ∈ idx, (e.2.path = none ↔ e.2.timestamp_updated = none)

/-- Disk states the run-1/run-2 argument ranges over: distinct paths, and
every file survives an index scan. -/
def GoodDisk (d : Disk) : Prop :=
  (d.map (fun e => e.1)).Nodup ∧ scanOkDisk d = true

/-- No media file of any remote note gets a markdown-looking name: the
extensions provided by `mimetypes` never produce `.md`. -/
def MediaNamesOk (notes : List RemoteNote) : Prop :=
  ∀ n ∈ notes, ∀ m ∈ all_note_media n,
    endsWithMd (sanitize_filename m.id 135 ++ m.ext) = false

/-- The note's local state is settled: the file the next scan will pick as
the winner for this identifier carries the remote updated timestamp. -/
def Settled (n : RemoteNote) (d : Disk) : Prop :=
  ∃ p, winner n.id d = some (p, n.updated)

/-- Invariant of the first run's per-note loop: the disk remains
scannable with distinct paths, processed notes are settled, unprocessed
notes still see the winner they had on the starting disk, and the starting
disk's paths all still exist. -/
def Run1Inv (d0 : Disk) (done todo : List RemoteNote) (d : Disk) : Prop :=
  GoodDisk d ∧
  (∀ n ∈ done, Settled n d) ∧
  (∀ n ∈ todo, winner n.id d = winner n.id d0) ∧
  (∀ p : Path, dexists d0 p = true → dexists d p = true)

/-! ## Concrete fixtures used to instantiate the theorems -/

/-- A constant date-format function (a fixed `strftime` output). -/
def fxDate : Int → String := fun _ => "d"

/-- Header on, deletion off, renaming off. -/
def fxCfg : Config := ⟨true, false, false, true, fxDate⟩

/-- Header off. -/
def fxCfgNoHeader : Config := ⟨false, false, false, true, fxDate⟩

/-- Header on, renaming on. -/
def fxCfgRename : Config := ⟨true, false, true, true, fxDate⟩

/-- A remote note with no media. -/
def fxNoteX : RemoteNote := ⟨"X", "t", 0, 5, [], [], []⟩

/-- A second remote note with no media. -/
def fxNoteY : RemoteNote := ⟨"Y", "u", 0, 7, [], [], []⟩

/-- A media blob whose identifier contains no dot. -/
def fxMediaJpg : RemoteMedia := ⟨"m123", ".jpg", some 5⟩

/-- The note `X` carrying `fxMediaJpg`. -/
def fxNoteXM : RemoteNote := ⟨"X", "t", 0, 5, [fxMediaJpg], [], []⟩

/-- An environment in which every note-file write fails. -/
def fxEnvFailWrite : Env := ⟨fun _ _ => false, fun _ => true, fun _ => false⟩

/-- An environment in which every rename fails. -/
def fxEnvFailRename : Env := ⟨fun _ _ => true, fun _ => false, fun _ => false⟩

/-- A disk holding note `X` under a stale name. -/
def fxDiskOld : Disk := [(["old.md"], .md (some "X") (some 5))]

/-- An index with one media record for note `X` and no note file. -/
def fxIdxMediaOrphan : Index :=
  [("X", ⟨"X", none, none, [("m", ⟨["media", "X", "m"], "X", "m"⟩)]⟩)]

/-- The disk matching `fxIdxMediaOrphan`. -/
def fxDiskMediaOrphan : Disk := [(["media", "X", "m"], .bytes 1)]

/-- A disk with one unreadable markdown file, then a parseable one. -/
def fxDiskBadScan : Disk :=
  [(["a.md"], .unreadable), (["b.md"], .md (some "B") (some 1))]

/-! ## Basic lemmas -/

theorem ow_some {α : Type} (x : α) (b : Option α) : ow (some x) b = some x := rfl

theorem ow_none {α : Type} (b : Option α) : ow none b = b := rfl

theorem string_data_inj : ∀ {s t : String}, s.data = t.data → s = t
  | ⟨_⟩, ⟨_⟩, rfl => rfl

theorem string_data_append : ∀ (s t : String), (s ++ t).data = s.data ++ t.data
  | ⟨_⟩, ⟨_⟩ => rfl

theorem dexists_iff_mem {d : Disk} {p : Path} :
    dexists d p = true ↔ p ∈ d.map (fun e => e.1) := by
  simp only [dexists, List.any_eq_true, decide_eq_true_eq, List.mem_map]

theorem dexists_dupsert_self (d : Disk) (p : Path) (v : FileData) :
    dexists (dupsert d p v) p = true := by
  rw [dexists_iff_mem]
  unfold dupsert
  by_cases h : dexists d p = true
  · rw [if_pos h]
    rcases List.mem_map.mp (dexists_iff_mem.mp h) with ⟨e, he, hfst⟩
    exact List.mem_map.mpr ⟨(p, v), List.mem_map.mpr ⟨e, he, by rw [if_pos hfst]⟩, rfl⟩
  · rw [if_neg h, List.map_append]
    exact List.mem_append_right _ (by simp)

/-! ## Decimal printing is injective -/

theorem digitChar_inj_fin : ∀ x y : Fin 10, digitChar x.val = digitChar y.val → x = y := by
  decide

theorem digitChar_inj_lt {x y : Nat} (hx : x < 10) (hy : y < 10)
    (h : digitChar x = digitChar y) : x = y := by
  have := digitChar_inj_fin ⟨x, hx⟩ ⟨y, hy⟩ h
  exact congrArg Fin.val this

theorem map_digitChar_inj : ∀ {l₁ l₂ : List Nat}, (∀ x ∈ l₁, x < 10) →
    (∀ x ∈ l₂, x < 10) → l₁.map digitChar = l₂.map digitChar → l₁ = l₂
  | [], [], _, _, _ => rfl
  | [], _ :: _, _, _, h => by simp at h
  | _ :: _, [], _, _, h => by simp at h
  | a :: l₁, b :: l₂, h₁, h₂, h => by
    simp only [List.map_cons, List.cons.injEq] at h
    have hab : a = b :=
      digitChar_inj_lt (h₁ a (by simp)) (h₂ b (by simp)) h.1
    have := map_digitChar_inj (fun x hx => h₁ x (by simp [hx]))
      (fun x hx => h₂ x (by simp [hx])) h.2
    simp [hab, this]

theorem natStr_data_nonzero {n : Nat} (hn : n ≠ 0) :
    (natStr n).data = ((Nat.digits 10 n).reverse).map digitChar := by
  simp [natStr, hn]

theorem digits_singleton_zero {n x : Nat} (hn : n ≠ 0)
    (hx : Nat.digits 10 n = [x]) (hx0 : x = 0) : False := by
  have hod := Nat.ofDigits_digits 10 n
  rw [hx, hx0] at hod
  simp only [Nat.ofDigits_cons, Nat.ofDigits_nil] at hod
  omega

theorem natStr_ne_zero_case {b : Nat} (hb : b ≠ 0)
    (hdata : ['0'] = (natStr b).data) : False := by
  rw [natStr_data_nonzero hb] at hdata
  have hlen : (Nat.digits 10 b).length = 1 := by
    have := congrArg List.length hdata
    simpa using this.symm
  rcases List.length_eq_one.mp hlen with ⟨x, hx⟩
  rw [hx] at hdata
  simp only [List.reverse_cons, List.reverse_nil, List.nil_append,
    List.map_cons, List.map_nil] at hdata
  have hchar : '0' = digitChar x := by injection hdata
  have hx10 : x < 10 := Nat.digits_lt_base (by norm_num) (by rw [hx]; simp)
  have hx0 : x = 0 := digitChar_inj_lt hx10 (by norm_num) hchar.symm
  exact digits_singleton_zero hb hx hx0

theorem natStr_inj {a b : Nat} (h : natStr a = natStr b) : a = b := by
  have hdata : (natStr a).data = (natStr b).data := by rw [h]
  by_cases ha : a = 0 <;> by_cases hb : b = 0
  · omega
  · exfalso
    subst ha
    exact natStr_ne_zero_case hb hdata
  · exfalso
    subst hb
    exact natStr_ne_zero_case ha hdata.symm
  · rw [natStr_data_nonzero ha, natStr_data_nonzero hb] at hdata
    have hrev : (Nat.digits 10 a).reverse = (Nat.digits 10 b).reverse := by
      refine map_digitChar_inj ?_ ?_ hdata
      · intro x hx
        exact Nat.digits_lt_base (by norm_num) (List.mem_reverse.mp hx)
      · intro x hx
        exact Nat.digits_lt_base (by norm_num) (List.mem_reverse.mp hx)
    have : Nat.digits 10 a = Nat.digits 10 b := List.reverse_injective hrev
    exact Nat.digits_inj_iff.mp this

theorem natStr_data_length_pos (n : Nat) : 0 < (natStr n).data.length := by
  by_cases hn : n = 0
  · subst hn; decide
  · rw [natStr_data_nonzero hn]
    simp only [List.length_map, List.length_reverse]
    exact List.length_pos.mpr (Nat.digits_ne_nil_iff_ne_zero.mpr hn)

/-! ## The dedupe suffix family is injective and fresh -/

theorem dedupeName_data (stem noteId : String) (k : Nat) :
    (dedupeName stem noteId k).data =
      stem.data ++ ['.'] ++ noteId.data ++ ['.'] ++ (natStr k).data ++ ['.', 'm', 'd'] := by
  simp only [dedupeName, string_data_append]

theorem dedupeName_inj {stem noteId : String} {k k' : Nat}
    (h : dedupeName stem noteId k = dedupeName stem noteId k') : k = k' := by
  have hd := congrArg String.data h
  rw [dedupeName_data, dedupeName_data] at hd
  have h1 : (natStr k).data ++ ['.', 'm', 'd'] = (natStr k').data ++ ['.', 'm', 'd'] := by
    have := hd
    repeat rw [List.append_assoc] at this
    exact List.append_cancel_left (List.append_cancel_left (List.append_cancel_left
      (List.append_cancel_left this)))
  have h2 : (natStr k).data = (natStr k').data := List.append_cancel_right h1
  exact natStr_inj (string_data_inj h2)

theorem dedupeName_ne_canonical (stem noteId : String) (k : Nat) :
    stem ++ ".md" ≠ dedupeName stem noteId k := by
  intro h
  have hd := congrArg (fun s => s.data.length) h
  simp only [dedupeName_data, string_data_append, List.length_append] at hd
  have h3 : (".md" : String).data.length = 3 := rfl
  have := natStr_data_length_pos k
  omega

theorem exists_free_candidate (d : Disk) (stem noteId : String) :
    dexists d [stem ++ ".md"] = false ∨
    ∃ j, 1 ≤ j ∧ j ≤ d.length ∧ dexists d [dedupeName stem noteId j] = false := by
  by_contra hcon
  push_neg at hcon
  obtain ⟨hcanon, hall⟩ := hcon
  have hcanon' : dexists d [stem ++ ".md"] = true := by
    cases h : dexists d [stem ++ ".md"] with
    | false => exact absurd h hcanon
    | true => rfl
  have hall' : ∀ j, 1 ≤ j → j ≤ d.length → dexists d [dedupeName stem noteId j] = true := by
    intro j h1 h2
    cases h : dexists d [dedupeName stem noteId j] with
    | false => exact absurd h (hall j h1 h2)
    | true => rfl
  -- pigeonhole: d.length + 1 distinct paths all live in a list of d.length paths
  set f : Nat → Path := fun j => if j = 0 then [stem ++ ".md"] else [dedupeName stem noteId j]
    with hf
  have hmaps : ∀ j ∈ Finset.range (d.length + 1), f j ∈ (d.map (fun e => e.1)).toFinset := by
    intro j hj
    rw [List.mem_toFinset]
    rw [Finset.mem_range] at hj
    by_cases hj0 : j = 0
    · subst hj0
      simp only [hf, if_pos rfl]
      exact dexists_iff_mem.mp hcanon'
    · simp only [hf, if_neg hj0]
      exact dexists_iff_mem.mp (hall' j (Nat.one_le_iff_ne_zero.mpr hj0) (by omega))
  have hinj : Set.InjOn f (Finset.range (d.length + 1)) := by
    intro x _ y _ hxy
    by_cases hx0 : x = 0 <;> by_cases hy0 : y = 0
    · omega
    · exfalso
      simp only [hf, if_pos hx0, if_neg hy0, List.cons.injEq, and_true] at hxy
      exact dedupeName_ne_canonical stem noteId y hxy
    · exfalso
      simp only [hf, if_neg hx0, if_pos hy0, List.cons.injEq, and_true] at hxy
      exact dedupeName_ne_canonical stem noteId x hxy.symm
    · simp only [hf, if_neg hx0, if_neg hy0, List.cons.injEq, and_true] at hxy
      exact dedupeName_inj hxy
  have hcard := Finset.card_le_card_of_injOn f hmaps hinj
  rw [Finset.card_range] at hcard
  have := List.toFinset_card_le (d.map (fun e => e.1))
  rw [List.length_map] at this
  omega

theorem dedupeLoop_spec (d : Disk) (stem noteId : String) :
    ∀ (fuel k : Nat) (target : Path),
      (dexists d target = false ∨
        ∃ j, k ≤ j ∧ j < k + fuel ∧ dexists d [dedupeName stem noteId j] = false) →
      (dedupeLoop d stem noteId fuel k target = target ∧ dexists d target = false) ∨
      (∃ j, k ≤ j ∧
        dedupeLoop d stem noteId fuel k target = [dedupeName stem noteId j] ∧
        dexists d [dedupeName stem noteId j] = false ∧
        dexists d target = true ∧
        ∀ i, k ≤ i → i < j → dexists d [dedupeName stem noteId i] = true) := by
  intro fuel
  induction fuel with
  | zero =>
    intro k target h
    rcases h with h | ⟨j, h1, h2, _⟩
    · exact Or.inl ⟨rfl, h⟩
    · omega
  | succ fuel ih =>
    intro k target h
    by_cases ht : dexists d target = true
    · have hrest : ∃ j, k ≤ j ∧ j < k + (fuel + 1) ∧
          dexists d [dedupeName stem noteId j] = false := by
        rcases h with h | h
        · rw [ht] at h; cases h
        · exact h
      have hloop : dedupeLoop d stem noteId (fuel + 1) k target =
          dedupeLoop d stem noteId fuel (k + 1) [dedupeName stem noteId k] := by
        simp [dedupeLoop, ht]
      by_cases hk : dexists d [dedupeName stem noteId k] = true
      · -- the k-th candidate is occupied as well: recurse
        have hrest' : dexists d [dedupeName stem noteId k] = false ∨
            ∃ j, k + 1 ≤ j ∧ j < k + 1 + fuel ∧
              dexists d [dedupeName stem noteId j] = false := by
          rcases hrest with ⟨j, hj1, hj2, hj3⟩
          right
          refine ⟨j, ?_, by omega, hj3⟩
          rcases Nat.eq_or_lt_of_le hj1 with rfl | hlt
          · rw [hk] at hj3; cases hj3
          · omega
        rcases ih (k + 1) [dedupeName stem noteId k] hrest' with ⟨heq, hfree⟩ | hright
        · rw [hk] at hfree; cases hfree
        · rcases hright with ⟨j, hj1, hj2, hj3, _, hj5⟩
          refine Or.inr ⟨j, by omega, by rw [hloop]; exact hj2, hj3, ht, ?_⟩
          intro i hi1 hi2
          rcases Nat.eq_or_lt_of_le hi1 with rfl | hlt
          · exact hk
          · exact hj5 i (by omega) hi2
      · -- the k-th candidate is free: one more step returns it
        have hkf : dexists d [dedupeName stem noteId k] = false := by
          cases hkk : dexists d [dedupeName stem noteId k] with
          | false => rfl
          | true => exact absurd hkk hk
        rcases ih (k + 1) [dedupeName stem noteId k] (Or.inl hkf) with ⟨heq, hfree⟩ | hright
        · refine Or.inr ⟨k, le_refl k, by rw [hloop]; exact heq, hfree, ht, ?_⟩
          intro i hi1 hi2
          omega
        · rcases hright with ⟨j, hj1, hj2, hj3, hj4, _⟩
          rw [hkf] at hj4; cases hj4
    · have htf : dexists d target = false := by
        cases htt : dexists d target with
        | false => rfl
        | true => exact absurd htt ht
      refine Or.inl ⟨?_, htf⟩
      simp [dedupeLoop, htf]

theorem dedupeLoop_fresh (d : Disk) (stem noteId : String) (target : Path)
    (htarget : target = [stem ++ ".md"]) :
    dexists d (dedupeLoop d stem noteId (d.length + 1) 1 target) = false := by
  subst htarget
  have hc := exists_free_candidate d stem noteId
  have hpre : dexists d [stem ++ ".md"] = false ∨
      ∃ j, 1 ≤ j ∧ j < 1 + (d.length + 1) ∧
        dexists d [dedupeName stem noteId j] = false := by
    rcases hc with h | ⟨j, h1, h2, h3⟩
    · exact Or.inl h
    · exact Or.inr ⟨j, h1, by omega, h3⟩
  rcases dedupeLoop_spec d stem noteId (d.length + 1) 1 [stem ++ ".md"] hpre with
    ⟨heq, hfree⟩ | ⟨j, _, heq, hfree, _, _⟩
  · rw [heq]; exact hfree
  · rw [heq]; exact hfree

/-! ## The path allocator: safety, dedupe order, stability -/

theorem build_fresh_of_no_local (note : RemoteNote) (dateFormat : Int → String)
    (idx : Index) (d : Disk)
    (h : (alookup idx note.id).bind (fun L => L.path) = none) :
    dexists d (build_note_unique_path note dateFormat idx d) = false := by
  simp only [build_note_unique_path, h]
  exact dedupeLoop_fresh d (canonicalStem dateFormat note) note.id _ rfl

theorem build_safe (note : RemoteNote) (dateFormat : Int → String)
    (idx : Index) (d : Disk) :
    (alookup idx note.id).bind (fun L => L.path) =
      some (build_note_unique_path note dateFormat idx d) ∨
    dexists d (build_note_unique_path note dateFormat idx d) = false := by
  rcases hlp : (alookup idx note.id).bind (fun L => L.path) with _ | lp
  · exact Or.inr (build_fresh_of_no_local note dateFormat idx d hlp)
  · simp only [build_note_unique_path, hlp]
    by_cases h1 : lp = [canonicalStem dateFormat note ++ ".md"]
    · rw [if_pos h1]
      exact Or.inl rfl
    · rw [if_neg h1]
      by_cases h2 : dexists d [canonicalStem dateFormat note ++ ".md"] = true
      · rw [if_pos h2]
        exact Or.inl rfl
      · rw [if_neg h2]
        exact Or.inr (dedupeLoop_fresh d (canonicalStem dateFormat note) note.id _ rfl)

/-- C2: the path returned by `build_note_unique_path` is either the note's
own indexed path or a path free on disk (never another file's path); when
the note has no local path and the canonical target is occupied, the first
free member of the suffix family `stem.<id>.1.md, stem.<id>.2.md, ...` is
returned, suffixes tried in strictly increasing order from 1; and a second
note without a local path, allocated after the first allocation has been
materialized on disk, receives a different path. -/
theorem build_note_unique_path_unique_nondestructive (note : RemoteNote)
    (dateFormat : Int → String) (idx : Index) (d : Disk) :
    ((alookup idx note.id).bind (fun L => L.path) =
        some (build_note_unique_path note dateFormat idx d) ∨
      dexists d (build_note_unique_path note dateFormat idx d) = false) ∧
    ((alookup idx note.id).bind (fun L => L.path) = none →
      dexists d [canonicalStem dateFormat note ++ ".md"] = true →
      ∃ k, 1 ≤ k ∧
        build_note_unique_path note dateFormat idx d =
          [dedupeName (canonicalStem dateFormat note) note.id k] ∧
        dexists d [dedupeName (canonicalStem dateFormat note) note.id k] = false ∧
        ∀ j, 1 ≤ j → j < k →
          dexists d [dedupeName (canonicalStem dateFormat note) note.id j] = true) ∧
    (∀ (note2 : RemoteNote) (v : FileData),
      (alookup idx note2.id).bind (fun L => L.path) = none →
      build_note_unique_path note2 dateFormat idx
          (dupsert d (build_note_unique_path note dateFormat idx d) v) ≠
        build_note_unique_path note dateFormat idx d) := by
  refine ⟨build_safe note dateFormat idx d, ?_, ?_⟩
  · intro hnone hocc
    simp only [build_note_unique_path, hnone]
    have hpre : dexists d [canonicalStem dateFormat note ++ ".md"] = false ∨
        ∃ j, 1 ≤ j ∧ j < 1 + (d.length + 1) ∧
          dexists d [dedupeName (canonicalStem dateFormat note) note.id j] = false := by
      rcases exists_free_candidate d (canonicalStem dateFormat note) note.id with h | ⟨j, h1, h2, h3⟩
      · exact Or.inl h
      · exact Or.inr ⟨j, h1, by omega, h3⟩
    rcases dedupeLoop_spec d (canonicalStem dateFormat note) note.id (d.length + 1) 1
        [canonicalStem dateFormat note ++ ".md"] hpre with ⟨_, hfree⟩ | ⟨j, hj1, heq, hfree, _, hoccs⟩
    · rw [hocc] at hfree; cases hfree
    · exact ⟨j, hj1, heq, hfree, fun i hi1 hi2 => hoccs i hi1 hi2⟩
  · intro note2 v h2 heq
    have hfresh := build_fresh_of_no_local note2 dateFormat idx
      (dupsert d (build_note_unique_path note dateFormat idx d) v) h2
    rw [heq] at hfresh
    rw [dexists_dupsert_self d (build_note_unique_path note dateFormat idx d) v] at hfresh
    cases hfresh

theorem build_note_unique_path_unique_nondestructive_witness :
    ∃ k, 1 ≤ k ∧
      build_note_unique_path fxNoteX fxDate [] [(["d - t.md"], FileData.bytes 0)] =
        [dedupeName (canonicalStem fxDate fxNoteX) fxNoteX.id k] ∧
      dexists [(["d - t.md"], FileData.bytes 0)]
        [dedupeName (canonicalStem fxDate fxNoteX) fxNoteX.id k] = false ∧
      ∀ j, 1 ≤ j → j < k →
        dexists [(["d - t.md"], FileData.bytes 0)]
          [dedupeName (canonicalStem fxDate fxNoteX) fxNoteX.id j] = true :=
  (build_note_unique_path_unique_nondestructive fxNoteX fxDate []
    [(["d - t.md"], FileData.bytes 0)]).2.1 (by decide) (by decide)

/-- C3: a note with an indexed local path keeps it: the allocator returns
the existing path unchanged when it already equals the canonical target,
and also whenever the canonical target exists on disk (no rename into a
collision, no dedupe suffixing). -/
theorem build_note_unique_path_stable (note : RemoteNote)
    (dateFormat : Int → String) (idx : Index) (d : Disk) (L : LocalNote)
    (p : Path) (hL : alookup idx note.id = some L) (hp : L.path = some p) :
    (p = [canonicalStem dateFormat note ++ ".md"] →
      build_note_unique_path note dateFormat idx d = p) ∧
    (dexists d [canonicalStem dateFormat note ++ ".md"] = true →
      build_note_unique_path note dateFormat idx d = p) := by
  have hlp : (alookup idx note.id).bind (fun L => L.path) = some p := by
    rw [hL]
    exact hp
  constructor
  · intro h1
    simp only [build_note_unique_path, hlp]
    rw [if_pos h1]
  · intro h2
    simp only [build_note_unique_path, hlp]
    by_cases h1 : p = [canonicalStem dateFormat note ++ ".md"]
    · rw [if_pos h1]
    · rw [if_neg h1, if_pos h2]

theorem build_note_unique_path_stable_witness :
    build_note_unique_path fxNoteX fxDate
      [("X", ⟨"X", some ["old.md"], some 5, []⟩)]
      [(["d - t.md"], FileData.bytes 0)] = ["old.md"] :=
  (build_note_unique_path_stable fxNoteX fxDate
    [("X", ⟨"X", some ["old.md"], some 5, []⟩)]
    [(["d - t.md"], FileData.bytes 0)]
    ⟨"X", some ["old.md"], some 5, []⟩ ["old.md"] (by decide) rfl).2 (by decide)

/-! ## Splitting media file names -/

theorem pySplitDot_nodot : ∀ (xs : List Char), '.' ∉ xs → pySplitDot xs = [xs]
  | [], _ => rfl
  | c :: rest, h => by
    have hc : ¬c = '.' := fun hcc => h (by simp [hcc])
    have hrest : pySplitDot rest = [rest] :=
      pySplitDot_nodot rest (fun hm => h (by simp [hm]))
    simp [pySplitDot, hrest, hc]

theorem pySplitDot_append : ∀ (xs ys : List Char), '.' ∉ xs →
    pySplitDot (xs ++ '.' :: ys) = xs :: pySplitDot ys
  | [], ys, _ => by simp [pySplitDot]
  | c :: rest, ys, h => by
    have hc : ¬c = '.' := fun hcc => h (by simp [hcc])
    have hrest : pySplitDot (rest ++ '.' :: ys) = rest :: pySplitDot ys :=
      pySplitDot_append rest ys (fun hm => h (by simp [hm]))
    simp [pySplitDot, hrest, hc]

theorem string_mk_append (l₁ l₂ : List Char) :
    String.mk l₁ ++ String.mk l₂ = String.mk (l₁ ++ l₂) :=
  string_data_inj (by rw [string_data_append])

theorem recoverMediaId_one_dot (a b e : List Char)
    (ha : '.' ∉ a) (hb : '.' ∉ b) (_he : '.' ∉ e) :
    recoverMediaId (String.mk (a ++ '.' :: (b ++ '.' :: e))) =
      String.mk (a ++ '.' :: b) := by
  unfold recoverMediaId joinDot
  have h1 : pySplitDot (a ++ '.' :: (b ++ '.' :: e)) = a :: b :: pySplitDot e := by
    rw [pySplitDot_append a (b ++ '.' :: e) ha, pySplitDot_append b e hb]
  show String.mk (List.intercalate ['.']
    ((pySplitDot (String.mk (a ++ '.' :: (b ++ '.' :: e))).data).take 2)) = _
  have hdata : (String.mk (a ++ '.' :: (b ++ '.' :: e))).data =
      a ++ '.' :: (b ++ '.' :: e) := rfl
  rw [hdata, h1]
  have htake : (a :: b :: pySplitDot e).take 2 = [a, b] := rfl
  rw [htake]
  have hint : List.intercalate ['.'] [a, b] = a ++ '.' :: b := by
    simp [List.intercalate, List.intersperse]
  rw [hint]

/-- C6 counterexample: the media identifier `m123` contains no dot; the
downloader writes `media/X/m123.jpg`, but the next scan recovers the media
identifier `m123.jpg` (the first two dot-separated segments), which does
not equal `m123`, and the pair is classified local-only. -/
theorem media_id_roundtrip_counterexample :
    (¬ ('.' ∈ ("m123" : String).data)) ∧
    download_media benignEnv fxNoteXM true [] =
      some ([(["media", "X", "m123.jpg"], FileData.bytes 5)],
            [["media", "X", "m123.jpg"]], 1, [["media", "X", "m123.jpg"]]) ∧
    recoverMediaId (pathName (noteMediaFile "X" fxMediaJpg)) ≠ "m123" ∧
    (index_existing_files "out" [(["media", "X", "m123.jpg"], FileData.bytes 5)]).map
        (fun r => localOnlyMediaPairs r.1 [fxNoteXM]) =
      some [("X", "m123.jpg")] :=
  ⟨by decide, by decide, by decide, by decide⟩

/-- C6 amended: for a media identifier containing exactly one dot (both
halves dot-free), unchanged by filename sanitization, with an extension of
the form `.seg` where `seg` is dot-free, the identifier recovered from the
written filename equals the original remote media identifier, and the
recovered pair is never classified local-only when the remote note carries
that media. -/
theorem media_id_roundtrip_amended (noteId : String) (m : RemoteMedia)
    (a b e : List Char) (hid : m.id = String.mk (a ++ '.' :: b))
    (hext : m.ext = String.mk ('.' :: e))
    (ha : '.' ∉ a) (hb : '.' ∉ b) (he : '.' ∉ e)
    (hsan : sanitize_filename m.id 135 = m.id) :
    recoverMediaId (pathName (noteMediaFile noteId m)) = m.id ∧
    ∀ (idx : Index) (note : RemoteNote), note.id = noteId →
      m ∈ all_note_media note →
      (noteId, recoverMediaId (pathName (noteMediaFile noteId m))) ∉
        localOnlyMediaPairs idx [note] := by
  have hname : pathName (noteMediaFile noteId m) =
      String.mk (a ++ '.' :: (b ++ '.' :: e)) := by
    show sanitize_filename m.id 135 ++ m.ext = _
    rw [hsan, hid, hext, string_mk_append]
    congr 1
    simp
  have hrec : recoverMediaId (pathName (noteMediaFile noteId m)) = m.id := by
    rw [hname, recoverMediaId_one_dot a b e ha hb he, hid]
  refine ⟨hrec, ?_⟩
  intro idx note hnid hm hmem
  have hkeep : (noteId, recoverMediaId (pathName (noteMediaFile noteId m))) ∈
      keepMediaPairs [note] := by
    rw [hrec]
    unfold keepMediaPairs
    simp only [List.map_cons, List.map_nil, List.flatten_cons, List.flatten_nil,
      List.append_nil]
    exact List.mem_map.mpr ⟨m, hm, by rw [hnid]⟩
  rcases List.mem_filter.mp hmem with ⟨_, hpred⟩
  simp only [decide_eq_true_eq] at hpred
  exact hpred hkeep

theorem media_id_roundtrip_amended_witness :
    recoverMediaId (pathName (noteMediaFile "X" ⟨"aa.bb", ".jpg", some 5⟩)) =
      "aa.bb" :=
  (media_id_roundtrip_amended "X" ⟨"aa.bb", ".jpg", some 5⟩
    ['a', 'a'] ['b', 'b'] ['j', 'p', 'g'] (by decide) (by decide)
    (by decide) (by decide) (by decide) (by decide)).1

/-- C5: recoverable scan errors.  The source's `except IOError` handler
executes `errors = 0` (line 260) instead of incrementing, so an unreadable
note file is skipped and the scan continues but the summary reports zero
errors; and only `IOError` is caught, so a note file whose metadata block
is malformed aborts the whole scan instead of being counted. -/
theorem scan_error_counter_bug :
    index_existing_files "out" fxDiskBadScan =
      some ([("B", ⟨"B", some ["b.md"], some 1, []⟩)], ⟨1, 0, 0, 0⟩) ∧
    index_existing_files "out" [(["c.md"], FileData.badParse)] = none :=
  ⟨by decide, by decide⟩

/-! ## Deletion gating -/

theorem delete_disabled_noop (idx : Index) (keepNotes : List RemoteNote)
    (d : Disk) :
    ∃ reps, delete_local_only_files idx keepNotes false d = (0, 0, d, reps, []) := by
  unfold delete_local_only_files
  by_cases h1 : (local_only_note_ids idx keepNotes).isEmpty <;>
    by_cases h2 : (localOnlyMediaPairs idx keepNotes).isEmpty <;>
    simp [h1, h2]

/-- C7: with deletion disabled, reconciling deletions unlinks nothing,
returns zero deleted-note and deleted-media counts and leaves the disk
unchanged — but the count printed in the local-only media report line is
`len(local_only_note_ids)` (export.py line 401), not the local-only media
count: here one media pair is local-only yet the line reports 0. -/
theorem deletion_gating_report_bug :
    delete_local_only_files fxIdxMediaOrphan [fxNoteX] false fxDiskMediaOrphan =
      (0, 0, fxDiskMediaOrphan, [Report.mediaLocalOnly 0], []) ∧
    (localOnlyMediaPairs fxIdxMediaOrphan [fxNoteX]).length = 1 :=
  ⟨by rfl, by decide⟩

/-- C4: timestamp-driven skip.  When the note's identifier is in the index
with a recorded updated timestamp equal to the remote one, the per-note
step performs no media download and no file write (the write and unlink
logs and every counter other than `skipped` are unchanged, including the
`updated` and `downloaded` counters) and increments the skipped counter;
path resolution and the optional rename happen before this decision, so
the disk may change by a rename and the rename log may grow, yet the note
still counts as skipped, never as updated. -/
theorem processNote_skip (cfg : Config) (env : Env) (idx : Index)
    (note : RemoteNote) (d : Disk) (c : Counters) (log : RunLog) (L : LocalNote)
    (hL : alookup idx note.id = some L)
    (hts : L.timestamp_updated = some note.updated) :
    ∃ d' renames',
      processNote cfg env idx note (d, c, log) =
        some (d', { c with skipped := c.skipped + 1 },
              { log with renames := renames' }) := by
  rcases hpath : L.path with _ | lp
  · refine ⟨d, log.renames, ?_⟩
    simp [processNote, hL, hpath, hts]
  · by_cases hren : (cfg.rename_local &&
        !(lp = build_note_unique_path note cfg.date_format idx d)) = true
    · refine ⟨(try_rename_note env L
          (build_note_unique_path note cfg.date_format idx d) d).1,
        log.renames ++ (try_rename_note env L
          (build_note_unique_path note cfg.date_format idx d) d).2.2.toList, ?_⟩
      simp [processNote, hL, hpath, hts, hren]
    · refine ⟨d, log.renames, ?_⟩
      simp [processNote, hL, hpath, hts, hren]

theorem processNote_skip_witness :
    ∃ d' renames',
      processNote fxCfgRename benignEnv
        [("X", ⟨"X", some ["old.md"], some 5, []⟩)] fxNoteX
        (fxDiskOld, Counters.init, ⟨[], [], []⟩) =
        some (d', ⟨1, 0, 0, 0, 0, 0⟩, ⟨[], renames', []⟩) :=
  processNote_skip fxCfgRename benignEnv
    [("X", ⟨"X", some ["old.md"], some 5, []⟩)] fxNoteX fxDiskOld
    Counters.init ⟨[], [], []⟩ ⟨"X", some ["old.md"], some 5, []⟩
    (by decide) rfl

/-! ## Association list lemmas -/

theorem ow_right_none {α : Type} (a : Option α) : ow a none = a := by
  cases a <;> rfl

theorem ow_assoc {α : Type} (a b c : Option α) :
    ow a (ow b c) = ow (ow a b) c := by
  cases a <;> cases b <;> rfl

theorem alookup_cons {α : Type} (e : String × α) (m : List (String × α))
    (k : String) :
    alookup (e :: m) k = if e.1 = k then some e.2 else alookup m k := by
  unfold alookup
  by_cases h : e.1 = k
  · rw [List.find?_cons_of_pos _ (by simp [h]), if_pos h]
    rfl
  · rw [List.find?_cons_of_neg _ (by simp [h]), if_neg h]

theorem alookup_append {α : Type} (m m' : List (String × α)) (k : String) :
    alookup (m ++ m') k = ow (alookup m k) (alookup m' k) := by
  induction m with
  | nil => rfl
  | cons e m ih =>
    rw [List.cons_append, alookup_cons, alookup_cons]
    by_cases h : e.1 = k
    · rw [if_pos h, if_pos h]
      rfl
    · rw [if_neg h, if_neg h, ih]

theorem alookup_aupdate_self {α : Type} (m : List (String × α)) (k : String)
    (f : α → α) :
    alookup (aupdate m k f) k = (alookup m k).map f := by
  induction m with
  | nil => rfl
  | cons e m ih =>
    unfold aupdate at ih ⊢
    by_cases h : e.1 = k <;>
      simp [alookup_cons, h, ih]

theorem alookup_aupdate_other {α : Type} (m : List (String × α)) (k k' : String)
    (f : α → α) (h : k' ≠ k) :
    alookup (aupdate m k f) k' = alookup m k' := by
  induction m with
  | nil => rfl
  | cons e m ih =>
    unfold aupdate at ih ⊢
    by_cases he : e.1 = k <;> by_cases he' : e.1 = k' <;>
      simp_all [alookup_cons]

theorem alookup_nil {α : Type} (k : String) :
    alookup ([] : List (String × α)) k = none := rfl

theorem alookup_asetdefault_self {α : Type} (m : List (String × α)) (k : String)
    (v : α) :
    alookup (asetdefault m k v) k = some ((alookup m k).getD v) := by
  unfold asetdefault
  rcases h : alookup m k with _ | x
  · rw [if_neg (by simp), alookup_append, h, alookup_cons]
    simp [ow]
  · rw [if_pos (by simp), h]
    rfl

theorem alookup_asetdefault_other {α : Type} (m : List (String × α))
    (k k' : String) (v : α) (h : k' ≠ k) :
    alookup (asetdefault m k v) k' = alookup m k' := by
  unfold asetdefault
  split
  · rfl
  · rw [alookup_append, alookup_cons, if_neg (fun hc => h hc.symm), alookup_nil,
      ow_right_none]

theorem alookup_map_upsert {α : Type} (m : List (String × α)) (k : String)
    (v : α) :
    ∀ x, alookup m k = some x →
      alookup (m.map (fun e => if e.1 = k then (k, v) else e)) k = some v := by
  induction m with
  | nil => intro x h; simp [alookup] at h
  | cons e m ih =>
    intro x h
    rw [alookup_cons] at h
    by_cases he : e.1 = k
    · simp [alookup_cons, he]
    · rw [if_neg he] at h
      rw [List.map_cons, alookup_cons, if_neg (by simp [he])]
      exact ih x h

theorem alookup_map_upsert_other {α : Type} (m : List (String × α))
    (k k' : String) (v : α) (h : k' ≠ k) :
    alookup (m.map (fun e => if e.1 = k then (k, v) else e)) k' = alookup m k' := by
  induction m with
  | nil => rfl
  | cons e m ih =>
    rw [List.map_cons, alookup_cons, alookup_cons]
    by_cases he : e.1 = k
    · rw [if_pos he, if_neg (show ¬(k, v).1 = k' from fun hc => h hc.symm),
        if_neg (by rw [he]; exact fun hc => h hc.symm)]
      exact ih
    · rw [if_neg he]
      by_cases he' : e.1 = k'
      · rw [if_pos he', if_pos he']
      · rw [if_neg he', if_neg he']
        exact ih

theorem alookup_aupsert_self {α : Type} (m : List (String × α)) (k : String)
    (v : α) :
    alookup (aupsert m k v) k = some v := by
  unfold aupsert
  rcases h : alookup m k with _ | x
  · rw [if_neg (by simp), alookup_append, h, alookup_cons]
    simp [ow]
  · rw [if_pos (by simp)]
    exact alookup_map_upsert m k v x h

theorem alookup_aupsert_other {α : Type} (m : List (String × α)) (k k' : String)
    (v : α) (h : k' ≠ k) :
    alookup (aupsert m k v) k' = alookup m k' := by
  unfold aupsert
  split
  · exact alookup_map_upsert_other m k k' v h
  · rw [alookup_append, alookup_cons, if_neg (fun hc => h hc.symm), alookup_nil,
      ow_right_none]

/-! ## Scan characterization: the index records the last claimant -/

theorem alookup_mem {α : Type} {m : List (String × α)} {k : String} {x : α}
    (h : alookup m k = some x) : ∃ e ∈ m, e.2 = x ∧ e.1 = k := by
  unfold alookup at h
  rcases hf : m.find? (fun e => e.1 = k) with _ | e
  · rw [hf] at h; cases h
  · rw [hf] at h
    have hex : e.2 = x := by injection h
    have hm := List.mem_of_find?_eq_some hf
    have hp := List.find?_some hf
    exact ⟨e, hm, hex, by simpa using hp⟩

theorem pathTs_of_lookup {idx : Index} {g : String} {L : LocalNote}
    (hL : alookup idx g = some L) :
    pathTs idx g = match L.path, L.timestamp_updated with
      | some p, some u => some (p, u)
      | _, _ => none := by
  unfold pathTs
  rw [hL]

theorem pathTs_of_lookup_none {idx : Index} {g : String}
    (hL : alookup idx g = none) : pathTs idx g = none := by
  unfold pathTs
  rw [hL]

theorem path_none_of_pathTs_none {idx : Index} {g : String} {L : LocalNote}
    (hwf : WfIdx idx) (hL : alookup idx g = some L)
    (hpt : pathTs idx g = none) : L.path = none := by
  rw [pathTs_of_lookup hL] at hpt
  rcases hp : L.path with _ | p
  · rfl
  · exfalso
    rcases alookup_mem hL with ⟨e, hmem, hval, _⟩
    have hiff := hwf e hmem
    rw [hval] at hiff
    rcases hts : L.timestamp_updated with _ | u
    · rw [hiff.mpr hts] at hp
      cases hp
    · rw [hp, hts] at hpt
      cases hpt

theorem pathTs_some_elim {idx : Index} {g : String} {p : Path} {u : Int}
    (h : pathTs idx g = some (p, u)) :
    ∃ L, alookup idx g = some L ∧ L.path = some p ∧
      L.timestamp_updated = some u := by
  rcases hL : alookup idx g with _ | L
  · rw [pathTs_of_lookup_none hL] at h
    cases h
  · rw [pathTs_of_lookup hL] at h
    rcases hp : L.path with _ | p' <;> rcases ht : L.timestamp_updated with _ | u' <;>
      rw [hp, ht] at h
    · cases h
    · cases h
    · cases h
    · injection h with h'
      injection h' with h1 h2
      exact ⟨L, rfl, by rw [hp, h1], by rw [ht, h2]⟩

theorem WfIdx_nil : WfIdx [] := by
  intro e he
  cases he

theorem WfIdx_aupdate (idx : Index) (k : String) (f : LocalNote → LocalNote)
    (hwf : WfIdx idx)
    (hf : ∀ v, (v.path = none ↔ v.timestamp_updated = none) →
      ((f v).path = none ↔ (f v).timestamp_updated = none)) :
    WfIdx (aupdate idx k f) := by
  intro en hen
  unfold aupdate at hen
  rcases List.mem_map.mp hen with ⟨e0, he0, heq⟩
  subst heq
  by_cases he : e0.1 = k
  · rw [if_pos he]
    exact hf e0.2 (hwf e0 he0)
  · rw [if_neg he]
    exact hwf e0 he0

theorem WfIdx_asetdefault (idx : Index) (k : String) (hwf : WfIdx idx) :
    WfIdx (asetdefault idx k (LocalNote.ofId k)) := by
  intro en hen
  unfold asetdefault at hen
  split at hen
  · exact hwf en hen
  · rcases List.mem_append.mp hen with h | h
    · exact hwf en h
    · rcases List.mem_singleton.mp h with rfl
      simp [LocalNote.ofId]

theorem scanStep_wf (root : String) (st : Index × Summary)
    (e : Path × FileData) (st' : Index × Summary)
    (h : scanStep root st e = some st') (hwf : WfIdx st.1) : WfIdx st'.1 := by
  obtain ⟨p, fd⟩ := e
  unfold scanStep at h
  by_cases hmd : endsWithMd (pathName p) = true
  · rw [if_pos hmd] at h
    cases fd with
    | md gid upd =>
      cases gid with
      | none =>
        injection h with h'
        rw [← h']
        exact hwf
      | some g' =>
        cases upd with
        | none => cases h
        | some u =>
          injection h with h'
          have h1 : st'.1 = aupdate (asetdefault st.1 g' (LocalNote.ofId g')) g'
              (fun L => { L with timestamp_updated := some u, path := some p }) := by
            rw [← h']
          rw [h1]
          refine WfIdx_aupdate _ g' _ (WfIdx_asetdefault st.1 g' hwf) ?_
          intro v _
          constructor <;> intro hx <;> cases hx
    | badParse => cases h
    | bytes _ => cases h
    | unreadable =>
      injection h with h'
      rw [← h']
      exact hwf
  · rw [if_neg hmd] at h
    injection h with h'
    have h1 : st'.1 = aupdate
        (asetdefault st.1 (parentName root p) (LocalNote.ofId (parentName root p)))
        (parentName root p)
        (fun L => { L with local_media := aupsert L.local_media (recoverMediaId (pathName p)) ⟨p, parentName root p, recoverMediaId (pathName p)⟩ }) := by
      rw [← h']
    rw [h1]
    refine WfIdx_aupdate _ _ _ (WfIdx_asetdefault st.1 _ hwf) ?_
    intro v hv
    exact hv

theorem pathTs_congr {idx idx' : Index} {g : String}
    (h : alookup idx g = alookup idx' g) : pathTs idx g = pathTs idx' g := by
  unfold pathTs
  rw [h]

theorem claimInfo_md (g : String) (p : Path) (g' : String) (u : Int)
    (hmd : endsWithMd (pathName p) = true) :
    claimInfo g (p, FileData.md (some g') (some u)) =
      if g' = g then some (p, u) else none := by
  unfold claimInfo
  rw [if_pos hmd]

theorem claimInfo_md_nogid (g : String) (p : Path) (upd : Option Int) :
    claimInfo g (p, FileData.md none upd) = none := by
  unfold claimInfo
  split <;> rfl

theorem claimInfo_unreadable (g : String) (p : Path) :
    claimInfo g (p, FileData.unreadable) = none := by
  unfold claimInfo
  split <;> rfl

theorem claimInfo_nonmd (g : String) (e : Path × FileData)
    (hmd : endsWithMd (pathName e.1) = false) : claimInfo g e = none := by
  unfold claimInfo
  rw [if_neg (by simp [hmd])]

theorem pathTs_scan_update (idx : Index) (g' : String) (p : Path) (u : Int)
    (g : String) :
    pathTs (aupdate (asetdefault idx g' (LocalNote.ofId g')) g'
      (fun L => { L with timestamp_updated := some u, path := some p })) g =
    if g' = g then some (p, u) else pathTs idx g := by
  by_cases hg : g' = g
  · subst hg
    rw [if_pos (rfl : g' = g')]
    have h1 : alookup (aupdate (asetdefault idx g' (LocalNote.ofId g')) g'
        (fun L => { L with timestamp_updated := some u, path := some p })) g' =
        some { (alookup idx g').getD (LocalNote.ofId g') with
               timestamp_updated := some u, path := some p } := by
      rw [alookup_aupdate_self, alookup_asetdefault_self]
      rfl
    rw [pathTs_of_lookup h1]
  · rw [if_neg hg]
    exact pathTs_congr (by
      rw [alookup_aupdate_other _ _ _ _ (fun hc => hg hc.symm),
        alookup_asetdefault_other _ _ _ _ (fun hc => hg hc.symm)])

theorem pathTs_media_update (idx : Index) (g' mid : String) (me : LocalMedia)
    (g : String) :
    pathTs (aupdate (asetdefault idx g' (LocalNote.ofId g')) g'
      (fun L => { L with local_media := aupsert L.local_media mid me })) g =
    pathTs idx g := by
  by_cases hg : g' = g
  · subst hg
    rcases hL : alookup idx g' with _ | L
    · have h1 : alookup (aupdate (asetdefault idx g' (LocalNote.ofId g')) g'
          (fun L => { L with local_media := aupsert L.local_media mid me })) g' =
          some { LocalNote.ofId g' with
                 local_media := aupsert (LocalNote.ofId g').local_media mid me } := by
        rw [alookup_aupdate_self, alookup_asetdefault_self, hL]
        rfl
      rw [pathTs_of_lookup h1, pathTs_of_lookup_none hL]
      rfl
    · have h1 : alookup (aupdate (asetdefault idx g' (LocalNote.ofId g')) g'
          (fun L => { L with local_media := aupsert L.local_media mid me })) g' =
          some { L with local_media := aupsert L.local_media mid me } := by
        rw [alookup_aupdate_self, alookup_asetdefault_self, hL]
        rfl
      rw [pathTs_of_lookup h1, pathTs_of_lookup hL]
  · exact pathTs_congr (by
      rw [alookup_aupdate_other _ _ _ _ (fun hc => hg hc.symm),
        alookup_asetdefault_other _ _ _ _ (fun hc => hg hc.symm)])

theorem scanStep_pathTs (root : String) (st : Index × Summary)
    (e : Path × FileData) (st' : Index × Summary)
    (h : scanStep root st e = some st') (g : String) :
    pathTs st'.1 g = ow (claimInfo g e) (pathTs st.1 g) := by
  obtain ⟨p, fd⟩ := e
  unfold scanStep at h
  by_cases hmd : endsWithMd (pathName p) = true
  · rw [if_pos hmd] at h
    cases fd with
    | md gid upd =>
      cases gid with
      | none =>
        injection h with h'
        rw [← h', claimInfo_md_nogid g p upd, ow_none]
      | some g' =>
        cases upd with
        | none => cases h
        | some u =>
          injection h with h'
          rw [← h', claimInfo_md g p g' u hmd]
          refine (pathTs_scan_update st.1 g' _ u g).trans ?_
          by_cases hg : g' = g
          · rw [if_pos hg, if_pos hg, ow_some]
          · rw [if_neg hg, if_neg hg, ow_none]
    | badParse => cases h
    | bytes _ => cases h
    | unreadable =>
      injection h with h'
      rw [← h', claimInfo_unreadable g p, ow_none]
  · rw [if_neg hmd] at h
    rw [claimInfo_nonmd g (p, fd) (by simpa using hmd), ow_none]
    injection h with h'
    have h1 : st'.1 = aupdate
        (asetdefault st.1 (parentName root p) (LocalNote.ofId (parentName root p)))
        (parentName root p)
        (fun L => { L with local_media := aupsert L.local_media (recoverMediaId (pathName p)) ⟨p, parentName root p, recoverMediaId (pathName p)⟩ }) := by
      rw [← h']
    rw [h1]
    exact pathTs_media_update st.1 _ _ _ g

theorem scanGo_pathTs (root : String) :
    ∀ (l : List (Path × FileData)) (st st' : Index × Summary),
      scanGo root st l = some st' → ∀ g,
        pathTs st'.1 g = ow (winner g l) (pathTs st.1 g)
  | [], st, st', h, g => by
    injection h with h'
    rw [← h']
    show pathTs st.1 g = ow (ow (winner g []) none) (pathTs st.1 g)
    rw [winner, ow_none, ow_none]
  | e :: rest, st, st', h, g => by
    unfold scanGo at h
    rcases hstep : scanStep root st e with _ | st1
    · rw [hstep] at h; cases h
    · rw [hstep] at h
      have h1 := scanGo_pathTs root rest st1 st' h g
      have h2 := scanStep_pathTs root st e st1 hstep g
      rw [h1, h2, ow_assoc]
      rfl

theorem scanGo_wf (root : String) :
    ∀ (l : List (Path × FileData)) (st st' : Index × Summary),
      scanGo root st l = some st' → WfIdx st.1 → WfIdx st'.1
  | [], st, st', h, hwf => by
    injection h with h'
    rw [← h']
    exact hwf
  | e :: rest, st, st', h, hwf => by
    unfold scanGo at h
    rcases hstep : scanStep root st e with _ | st1
    · rw [hstep] at h; cases h
    · rw [hstep] at h
      exact scanGo_wf root rest st1 st' h (scanStep_wf root st e st1 hstep hwf)

theorem scanStep_total (root : String) (st : Index × Summary)
    (e : Path × FileData) (hok : entryOk e = true) :
    ∃ st', scanStep root st e = some st' := by
  obtain ⟨p, fd⟩ := e
  unfold entryOk at hok
  unfold scanStep
  by_cases hmd : endsWithMd (pathName p) = true
  · rw [if_pos hmd] at hok ⊢
    cases fd with
    | md gid upd =>
      cases gid with
      | none => exact ⟨_, rfl⟩
      | some g' =>
        cases upd with
        | none => cases hok
        | some u => exact ⟨_, rfl⟩
    | badParse => cases hok
    | bytes _ => cases hok
    | unreadable => exact ⟨_, rfl⟩
  · rw [if_neg hmd]
    exact ⟨_, rfl⟩

theorem scanStep_entryOk (root : String) (st : Index × Summary)
    (e : Path × FileData) (st' : Index × Summary)
    (h : scanStep root st e = some st') : entryOk e = true := by
  obtain ⟨p, fd⟩ := e
  unfold scanStep at h
  unfold entryOk
  by_cases hmd : endsWithMd (pathName p) = true
  · rw [if_pos hmd] at h ⊢
    cases fd with
    | md gid upd =>
      cases gid with
      | none => rfl
      | some g' =>
        cases upd with
        | none => cases h
        | some u => rfl
    | badParse => cases h
    | bytes _ => cases h
    | unreadable => rfl
  · rw [if_neg hmd]

theorem scanGo_total (root : String) :
    ∀ (l : List (Path × FileData)) (st : Index × Summary),
      scanOkDisk l = true → ∃ st', scanGo root st l = some st'
  | [], st, _ => ⟨st, rfl⟩
  | e :: rest, st, hok => by
    have hall := List.all_eq_true.mp hok
    have he : entryOk e = true := hall e (by simp)
    have hrest : scanOkDisk rest = true :=
      List.all_eq_true.mpr (fun x hx => hall x (by simp [hx]))
    rcases scanStep_total root st e he with ⟨st1, hstep⟩
    rcases scanGo_total root rest st1 hrest with ⟨st', hgo⟩
    exact ⟨st', by unfold scanGo; rw [hstep]; exact hgo⟩

theorem scanGo_ok_disk (root : String) :
    ∀ (l : List (Path × FileData)) (st st' : Index × Summary),
      scanGo root st l = some st' → scanOkDisk l = true
  | [], _, _, _ => rfl
  | e :: rest, st, st', h => by
    unfold scanGo at h
    rcases hstep : scanStep root st e with _ | st1
    · rw [hstep] at h; cases h
    · rw [hstep] at h
      have h1 := scanStep_entryOk root st e st1 hstep
      have h2 := scanGo_ok_disk root rest st1 st' h
      unfold scanOkDisk at h2 ⊢
      rw [List.all_cons, h1, h2]
      rfl

/-! ## Every non-markdown file is indexed as media under its parent name -/

theorem alookup_aupsert_isSome {α : Type} (m : List (String × α)) (k k' : String)
    (v : α) (h : (alookup m k').isSome = true) :
    (alookup (aupsert m k v) k').isSome = true := by
  by_cases hk : k' = k
  · subst hk
    rw [alookup_aupsert_self]
    rfl
  · rw [alookup_aupsert_other m k k' v hk]
    exact h

theorem alookup_asetdefault_some {α : Type} (m : List (String × α)) (k : String)
    (v x : α) (h : alookup m k = some x) : alookup (asetdefault m k v) k = some x := by
  rw [alookup_asetdefault_self, h]
  rfl

theorem scanStep_media_preserved (root : String) (st : Index × Summary)
    (e : Path × FileData) (st' : Index × Summary)
    (h : scanStep root st e = some st') (g mid : String)
    (hex : ∃ L, alookup st.1 g = some L ∧ (alookup L.local_media mid).isSome = true) :
    ∃ L, alookup st'.1 g = some L ∧ (alookup L.local_media mid).isSome = true := by
  rcases hex with ⟨L, hL, hkey⟩
  obtain ⟨p, fd⟩ := e
  unfold scanStep at h
  by_cases hmd : endsWithMd (pathName p) = true
  · rw [if_pos hmd] at h
    cases fd with
    | md gid upd =>
      cases gid with
      | none =>
        injection h with h'
        rw [← h']
        exact ⟨L, hL, hkey⟩
      | some g' =>
        cases upd with
        | none => cases h
        | some u =>
          injection h with h'
          have h1 : st'.1 = aupdate (asetdefault st.1 g' (LocalNote.ofId g')) g'
              (fun L => { L with timestamp_updated := some u, path := some p }) := by
            rw [← h']
          rw [h1]
          by_cases hg : g' = g
          · subst hg
            refine ⟨{ L with timestamp_updated := some u, path := some p }, ?_, hkey⟩
            rw [alookup_aupdate_self, alookup_asetdefault_some st.1 g' _ L hL]
            rfl
          · refine ⟨L, ?_, hkey⟩
            rw [alookup_aupdate_other _ _ _ _ (fun hc => hg hc.symm),
              alookup_asetdefault_other _ _ _ _ (fun hc => hg hc.symm)]
            exact hL
    | badParse => cases h
    | bytes _ => cases h
    | unreadable =>
      injection h with h'
      rw [← h']
      exact ⟨L, hL, hkey⟩
  · rw [if_neg hmd] at h
    injection h with h'
    have h1 : st'.1 = aupdate
        (asetdefault st.1 (parentName root p) (LocalNote.ofId (parentName root p)))
        (parentName root p)
        (fun L => { L with local_media := aupsert L.local_media (recoverMediaId (pathName p)) ⟨p, parentName root p, recoverMediaId (pathName p)⟩ }) := by
      rw [← h']
    rw [h1]
    by_cases hg : parentName root p = g
    · subst hg
      refine ⟨{ L with local_media := aupsert L.local_media (recoverMediaId (pathName p)) ⟨p, parentName root p, recoverMediaId (pathName p)⟩ }, ?_, ?_⟩
      · rw [alookup_aupdate_self, alookup_asetdefault_some st.1 _ _ L hL]
        rfl
      · exact alookup_aupsert_isSome _ _ _ _ hkey
    · refine ⟨L, ?_, hkey⟩
      rw [alookup_aupdate_other _ _ _ _ (fun hc => hg hc.symm),
        alookup_asetdefault_other _ _ _ _ (fun hc => hg hc.symm)]
      exact hL

theorem scanStep_media_creates (root : String) (st : Index × Summary)
    (e : Path × FileData) (st' : Index × Summary)
    (h : scanStep root st e = some st')
    (hmd : endsWithMd (pathName e.1) = false) :
    ∃ L, alookup st'.1 (parentName root e.1) = some L ∧
      (alookup L.local_media (recoverMediaId (pathName e.1))).isSome = true := by
  obtain ⟨p, fd⟩ := e
  unfold scanStep at h
  rw [if_neg (by simp [hmd])] at h
  injection h with h'
  have h1 : st'.1 = aupdate
      (asetdefault st.1 (parentName root p) (LocalNote.ofId (parentName root p)))
      (parentName root p)
      (fun L => { L with local_media := aupsert L.local_media (recoverMediaId (pathName p)) ⟨p, parentName root p, recoverMediaId (pathName p)⟩ }) := by
    rw [← h']
  rw [h1]
  have h2 : alookup (aupdate (asetdefault st.1 (parentName root p) (LocalNote.ofId (parentName root p))) (parentName root p) (fun L => { L with local_media := aupsert L.local_media (recoverMediaId (pathName p)) ⟨p, parentName root p, recoverMediaId (pathName p)⟩ })) (parentName root p) = some { (alookup st.1 (parentName root p)).getD (LocalNote.ofId (parentName root p)) with local_media := aupsert ((alookup st.1 (parentName root p)).getD (LocalNote.ofId (parentName root p))).local_media (recoverMediaId (pathName p)) ⟨p, parentName root p, recoverMediaId (pathName p)⟩ } := by
    rw [alookup_aupdate_self, alookup_asetdefault_self]
    rfl
  refine ⟨_, h2, ?_⟩
  show (alookup (aupsert ((alookup st.1 (parentName root p)).getD (LocalNote.ofId (parentName root p))).local_media (recoverMediaId (pathName p)) ⟨p, parentName root p, recoverMediaId (pathName p)⟩) (recoverMediaId (pathName p))).isSome = true
  rw [alookup_aupsert_self]
  rfl

theorem scanGo_media_preserved (root : String) :
    ∀ (l : List (Path × FileData)) (st st' : Index × Summary),
      scanGo root st l = some st' → ∀ g mid,
      (∃ L, alookup st.1 g = some L ∧ (alookup L.local_media mid).isSome = true) →
      ∃ L, alookup st'.1 g = some L ∧ (alookup L.local_media mid).isSome = true
  | [], st, st', h, g, mid, hex => by
    injection h with h'
    rw [← h']
    exact hex
  | e :: rest, st, st', h, g, mid, hex => by
    unfold scanGo at h
    rcases hstep : scanStep root st e with _ | st1
    · rw [hstep] at h; cases h
    · rw [hstep] at h
      exact scanGo_media_preserved root rest st1 st' h g mid
        (scanStep_media_preserved root st e st1 hstep g mid hex)

theorem scanGo_media (root : String) :
    ∀ (l : List (Path × FileData)) (st st' : Index × Summary),
      scanGo root st l = some st' →
      ∀ p fd, (p, fd) ∈ l → endsWithMd (pathName p) = false →
      ∃ L, alookup st'.1 (parentName root p) = some L ∧
        (alookup L.local_media (recoverMediaId (pathName p))).isSome = true
  | [], _, _, _, p, fd, hmem, _ => by cases hmem
  | e :: rest, st, st', h, p, fd, hmem, hmd => by
    unfold scanGo at h
    rcases hstep : scanStep root st e with _ | st1
    · rw [hstep] at h; cases h
    · rw [hstep] at h
      rcases List.mem_cons.mp hmem with heq | hmem'
      · subst heq
        exact scanGo_media_preserved root rest st1 st' h _ _
          (scanStep_media_creates root st (p, fd) st1 hstep hmd)
      · exact scanGo_media root rest st1 st' h p fd hmem' hmd

theorem mem_keys_of_alookup {α : Type} {m : List (String × α)} {k : String}
    {x : α} (h : alookup m k = some x) : k ∈ m.map (fun e => e.1) := by
  rcases alookup_mem h with ⟨e, hm, _, hk⟩
  exact List.mem_map.mpr ⟨e, hm, hk⟩

/-- C10: every regular file not named like a note file, anywhere under the
root (files directly in the root included, where the parent directory is
the root itself), is indexed as a media record keyed by its immediate
parent directory's name: the scan creates a `LocalNote` entry for that
name holding the recovered media identifier, the entry is pathless when no
markdown file claims that name, and the entry participates in orphan
detection whenever the name is not a remote identifier. -/
theorem scan_indexes_every_non_md_file (root : String) (d : Disk)
    (idx : Index) (s : Summary)
    (hscan : index_existing_files root d = some (idx, s))
    (p : Path) (fd : FileData) (hmem : (p, fd) ∈ d)
    (hmd : endsWithMd (pathName p) = false) :
    ∃ L, alookup idx (parentName root p) = some L ∧
      (alookup L.local_media (recoverMediaId (pathName p))).isSome = true ∧
      (winner (parentName root p) d = none → L.path = none) ∧
      ∀ keepNotes : List RemoteNote,
        parentName root p ∉ keepNotes.map (fun n => n.id) →
        parentName root p ∈ local_only_note_ids idx keepNotes := by
  unfold index_existing_files at hscan
  rcases scanGo_media root d ([], Summary.init) (idx, s) hscan p fd hmem hmd with
    ⟨L, hL, hkey⟩
  refine ⟨L, hL, hkey, ?_, ?_⟩
  · intro hwin
    have hwf : WfIdx idx :=
      scanGo_wf root d ([], Summary.init) (idx, s) hscan WfIdx_nil
    have hpt := scanGo_pathTs root d ([], Summary.init) (idx, s) hscan
      (parentName root p)
    rw [hwin, ow_none] at hpt
    exact path_none_of_pathTs_none hwf hL hpt
  · intro keepNotes hno
    unfold local_only_note_ids
    refine List.mem_filter.mpr ⟨List.mem_dedup.mpr (mem_keys_of_alookup hL), ?_⟩
    simp only [Bool.not_eq_true']
    rw [← Bool.not_eq_true]
    intro hc
    exact hno (by simpa using hc)

theorem scan_indexes_every_non_md_file_witness :
    "gkeep-export" ∈ local_only_note_ids
      [("gkeep-export", ⟨"gkeep-export", none, none,
        [("notes.txt", ⟨["notes.txt"], "gkeep-export", "notes.txt"⟩)]⟩)] [] := by
  obtain ⟨L, hL, hkey, hpath, horphan⟩ :=
    scan_indexes_every_non_md_file "gkeep-export" [(["notes.txt"], FileData.bytes 3)]
      [("gkeep-export", ⟨"gkeep-export", none, none,
        [("notes.txt", ⟨["notes.txt"], "gkeep-export", "notes.txt"⟩)]⟩)]
      ⟨0, 0, 0, 1⟩ (by rfl) ["notes.txt"] (FileData.bytes 3) (by decide) (by decide)
  exact horphan [] (by decide)

/-! ## The in-memory index is never mutated after the scan -/

/-- C9 counterexample: renaming enabled, note `X` indexed at `old.md` with
an equal timestamp.  The run renames the file to the canonical
`d - t.md` (the rename log is non-empty and `old.md` is gone from disk),
yet the index entry for `X` still records the old path `old.md`: the
successful rename is not reflected in the in-memory index. -/
theorem index_mutation_counterexample :
    (main fxCfgRename benignEnv "out" [fxNoteX] fxDiskOld).map
        (fun r => ((alookup r.index "X").bind (fun L => L.path),
          dexists r.disk ["old.md"], r.log.renames)) =
      some (some ["old.md"], false, [(["old.md"], ["d - t.md"])]) := by
  rfl

/-- C9 amended: the in-memory index is never mutated after the initial
scan.  Renames, deletions and note creations performed by the run are not
reflected in it: the index a completed run ends with is exactly the index
the initial scan of the starting disk produced. -/
theorem main_index_never_mutated (cfg : Config) (env : Env) (root : String)
    (remote : List RemoteNote) (d0 : Disk) (r : RunResult)
    (h : main cfg env root remote d0 = some r) :
    ∃ s, index_existing_files root d0 = some (r.index, s) := by
  rcases hscan : index_existing_files root d0 with _ | pr
  · simp only [main, hscan] at h
    cases h
  · obtain ⟨local_index, summary⟩ := pr
    simp only [main, hscan] at h
    split at h
    · cases h
    · injection h with h'
      refine ⟨summary, ?_⟩
      rw [← h']

theorem main_index_never_mutated_witness :
    ∃ s, index_existing_files "out" fxDiskOld =
      some ((⟨⟨1, 0, 0, 0, 0, 0⟩,
        [(["d - t.md"], FileData.md (some "X") (some 5))],
        [("X", ⟨"X", some ["old.md"], some 5, []⟩)],
        ⟨1, 0, 0, 0⟩,
        ⟨[], [(["old.md"], ["d - t.md"])], []⟩, []⟩ : RunResult).index, s) :=
  main_index_never_mutated fxCfgRename benignEnv "out" [fxNoteX] fxDiskOld
    ⟨⟨1, 0, 0, 0, 0, 0⟩,
      [(["d - t.md"], FileData.md (some "X") (some 5))],
      [("X", ⟨"X", some ["old.md"], some 5, []⟩)],
      ⟨1, 0, 0, 0⟩,
      ⟨[], [(["old.md"], ["d - t.md"])], []⟩, []⟩ (by rfl)

/-! ## Per-note failure containment -/

/-- C8 counterexample: a write failure on the first note's file aborts
the whole run (modelled as `none`) — the second note is never processed —
while the same two-note run completes in the benign environment. -/
theorem per_note_failure_counterexample :
    main fxCfg fxEnvFailWrite "out" [fxNoteX, fxNoteY] [] = none ∧
    (main fxCfg benignEnv "out" [fxNoteX, fxNoteY] []).isSome = true :=
  ⟨by rfl, by rfl⟩

theorem downloadOne_some (env : Env) (noteId : String) (sk : Bool)
    (m : RemoteMedia) (st : Disk × List Path × Nat × List Path)
    (h : env.failDownload m.id = false) :
    ∃ st', downloadOne env noteId sk m st = some st' := by
  simp only [downloadOne]
  split
  · exact ⟨_, rfl⟩
  · rw [h]
    exact ⟨_, rfl⟩

theorem downloadGo_some (env : Env) (noteId : String) (sk : Bool) :
    ∀ (ms : List RemoteMedia) (st : Disk × List Path × Nat × List Path),
      (∀ m ∈ ms, env.failDownload m.id = false) →
      ∃ st', downloadGo env noteId sk ms st = some st'
  | [], st, _ => ⟨st, rfl⟩
  | m :: rest, st, h => by
    rcases downloadOne_some env noteId sk m st (h m (by simp)) with ⟨st1, h1⟩
    rcases downloadGo_some env noteId sk rest st1
        (fun x hx => h x (by simp [hx])) with ⟨st', h2⟩
    refine ⟨st', ?_⟩
    unfold downloadGo
    rw [h1]
    exact h2

theorem materializeNote_some (cfg : Config) (env : Env) (note : RemoteNote)
    (target : Path) (d : Disk) (c : Counters) (log : RunLog)
    (hdl : ∀ m ∈ all_note_media note, env.failDownload m.id = false)
    (hw : env.failWrite target = false) :
    (materializeNote cfg env note target d c log).isSome = true := by
  unfold materializeNote
  split
  · rename_i heq
    exfalso
    rcases downloadGo_some env note.id cfg.skip_existing_media
        (all_note_media note) (d, [], 0, []) hdl with ⟨st', h'⟩
    unfold download_media at heq
    rw [heq] at h'
    cases h'
  · rw [hw]
    rfl

/-- C8 amended: only rename failures are contained per note.  A failed
rename is caught: the note keeps its old path, the disk is untouched, and
the per-note step still completes, so the run proceeds to the next note.
A media download failure or a note-file write failure, by contrast, is an
uncaught exception: the per-note step returns `none` and the loop — hence
the whole run — aborts, leaving the remaining notes unprocessed. -/
theorem note_failure_containment (cfg : Config) (env : Env) (idx : Index)
    (note : RemoteNote) (d : Disk) (st : Disk × Counters × RunLog)
    (L : LocalNote) (lp tgt : Path) :
    (L.path = some lp → env.failRename lp tgt = true →
      try_rename_note env L tgt d = (d, lp, none)) ∧
    ((∀ m ∈ all_note_media note, env.failDownload m.id = false) →
      (∀ p, env.failWrite p = false) →
      (processNote cfg env idx note st).isSome = true) ∧
    (alookup idx note.id = none → all_note_media note = [] →
      env.failWrite (build_note_unique_path note cfg.date_format idx st.1) = true →
      processNote cfg env idx note st = none) ∧
    (∀ rest, processNote cfg env idx note st = none →
      processAll cfg env idx (note :: rest) st = none) := by
  refine ⟨?_, ?_, ?_, ?_⟩
  · intro hp hfr
    unfold try_rename_note
    rw [hp]
    show (if (env.failRename lp tgt || !dexists d lp) = true then (d, lp, none)
      else (drename d lp tgt, tgt, some (lp, tgt))) = (d, lp, none)
    rw [hfr]
    rfl
  · intro hdl hw
    obtain ⟨d0, c0, log0⟩ := st
    rcases hL : alookup idx note.id with _ | ln
    · simp only [processNote, hL]
      exact materializeNote_some cfg env note _ _ _ _ hdl (hw _)
    · by_cases hts : ln.timestamp_updated = some note.updated
      · simp [processNote, hL, hts]
      · simp only [processNote, hL, if_neg hts]
        exact materializeNote_some cfg env note _ _ _ _ hdl (hw _)
  · intro hL hmedia hfw
    obtain ⟨d0, c0, log0⟩ := st
    simp only [processNote, hL]
    unfold materializeNote download_media
    rw [hmedia]
    show (if env.failWrite (build_note_unique_path note cfg.date_format idx d0) = true
      then none else _) = none
    rw [if_pos hfw]
  · intro rest hnone
    unfold processAll
    rw [hnone]

theorem note_failure_containment_witness :
    try_rename_note fxEnvFailRename ⟨"X", some ["old.md"], some 5, []⟩
        ["new.md"] fxDiskOld = (fxDiskOld, ["old.md"], none) ∧
    processNote fxCfg fxEnvFailWrite [] fxNoteX ([], Counters.init, ⟨[], [], []⟩) =
      none :=
  ⟨(note_failure_containment fxCfg fxEnvFailRename [] fxNoteX fxDiskOld
      ([], Counters.init, ⟨[], [], []⟩) ⟨"X", some ["old.md"], some 5, []⟩
      ["old.md"] ["new.md"]).1 rfl rfl,
   (note_failure_containment fxCfg fxEnvFailWrite [] fxNoteX []
      ([], Counters.init, ⟨[], [], []⟩) ⟨"X", some ["old.md"], some 5, []⟩
      ["old.md"] ["new.md"]).2.2.1 (by rfl) (by rfl) (by rfl)⟩

/-! ## Winner lemmas for disk mutations -/

theorem claimInfo_some_shape {g : String} {e : Path × FileData} {p : Path}
    {u : Int} (h : claimInfo g e = some (p, u)) :
    p = e.1 ∧ e.2 = FileData.md (some g) (some u) ∧
      endsWithMd (pathName e.1) = true := by
  unfold claimInfo at h
  by_cases hmd : endsWithMd (pathName e.1) = true
  · rw [if_pos hmd] at h
    cases he : e.2 with
    | md gid upd =>
      cases gid with
      | none =>
        simp only [he] at h
        cases h
      | some g' =>
        cases upd with
        | none =>
          simp only [he] at h
          cases h
        | some u' =>
          simp only [he] at h
          by_cases hg : g' = g
          · rw [if_pos hg] at h
            injection h with h'
            injection h' with h1 h2
            exact ⟨h1.symm, by rw [hg, h2], hmd⟩
          · rw [if_neg hg] at h
            cases h
    | badParse =>
      simp only [he] at h
      cases h
    | unreadable =>
      simp only [he] at h
      cases h
    | bytes sz =>
      simp only [he] at h
      cases h
  · rw [if_neg hmd] at h
    cases h

theorem winner_mem (g : String) :
    ∀ (d : Disk) (p : Path) (u : Int), winner g d = some (p, u) →
      p ∈ d.map (fun e => e.1)
  | [], _, _, h => by cases h
  | e :: rest, p, u, h => by
    unfold winner at h
    rcases hr : winner g rest with _ | pr
    · rw [hr, ow_none] at h
      rcases claimInfo_some_shape h with ⟨h1, _, _⟩
      rw [h1, List.map_cons]
      exact List.mem_cons_self _ _
    · rw [hr, ow_some] at h
      injection h with h'
      rw [List.map_cons]
      exact List.mem_cons_of_mem _ (winner_mem g rest p u (by rw [hr, h']))

theorem winner_md_name (g : String) :
    ∀ (d : Disk) (p : Path) (u : Int), winner g d = some (p, u) →
      endsWithMd (pathName p) = true
  | [], _, _, h => by cases h
  | e :: rest, p, u, h => by
    unfold winner at h
    rcases hr : winner g rest with _ | pr
    · rw [hr, ow_none] at h
      rcases claimInfo_some_shape h with ⟨h1, _, h3⟩
      rw [h1]
      exact h3
    · rw [hr, ow_some] at h
      injection h with h'
      exact winner_md_name g rest p u (by rw [hr, h'])

theorem winner_entry_data (g : String) :
    ∀ (d : Disk), (d.map (fun e => e.1)).Nodup →
      ∀ (p : Path) (u : Int), winner g d = some (p, u) →
      ∀ fd, (p, fd) ∈ d → fd = FileData.md (some g) (some u)
  | [], _, _, _, _, _, hmem => by cases hmem
  | e :: rest, hnod, p, u, h, fd, hmem => by
    rw [List.map_cons] at hnod
    have hnod' := List.nodup_cons.mp hnod
    unfold winner at h
    rcases hr : winner g rest with _ | pr
    · rw [hr, ow_none] at h
      rcases claimInfo_some_shape h with ⟨h1, h2, _⟩
      rcases List.mem_cons.mp hmem with heq | hmem'
      · rw [← heq] at h2
        exact h2
      · exfalso
        have hmem2 : p ∈ rest.map (fun e => e.1) :=
          List.mem_map.mpr ⟨(p, fd), hmem', rfl⟩
        rw [h1] at hmem2
        exact hnod'.1 hmem2
    · rw [hr, ow_some] at h
      injection h with h'
      rcases List.mem_cons.mp hmem with heq | hmem'
      · exfalso
        have hp := winner_mem g rest p u (by rw [hr, h'])
        have he1 : e.1 = p := by rw [← heq]
        rw [← he1] at hp
        exact hnod'.1 hp
      · exact winner_entry_data g rest hnod'.2 p u (by rw [hr, h']) fd hmem'

theorem winner_map_congr (g : String) (f : Path × FileData → Path × FileData) :
    ∀ d : Disk, (∀ e ∈ d, claimInfo g (f e) = claimInfo g e) →
      winner g (d.map f) = winner g d
  | [], _ => rfl
  | e :: rest, h => by
    unfold winner
    rw [List.map_cons]
    show ow (winner g (rest.map f)) (claimInfo g (f e)) = ow (winner g rest) (claimInfo g e)
    rw [winner_map_congr g f rest (fun x hx => h x (by simp [hx])), h e (by simp)]

theorem winner_append_single (g : String) (e : Path × FileData) :
    ∀ d : Disk, winner g (d ++ [e]) = ow (claimInfo g e) (winner g d)
  | [] => by
    show ow (winner g []) (claimInfo g e) = ow (claimInfo g e) (winner g [])
    rw [winner, ow_none, ow_right_none]
  | x :: d => by
    show ow (winner g (d ++ [e])) (claimInfo g x) =
      ow (claimInfo g e) (ow (winner g d) (claimInfo g x))
    rw [winner_append_single g e d, ow_assoc]

theorem dupsert_of_exists (d : Disk) (p : Path) (v : FileData)
    (h : dexists d p = true) :
    dupsert d p v = d.map (fun e => if e.1 = p then (p, v) else e) := by
  unfold dupsert
  rw [if_pos h]

theorem dupsert_of_not_exists (d : Disk) (p : Path) (v : FileData)
    (h : dexists d p = false) : dupsert d p v = d ++ [(p, v)] := by
  unfold dupsert
  rw [h]
  rfl

theorem keys_dupsert_inplace (d : Disk) (p : Path) (v : FileData)
    (h : dexists d p = true) :
    (dupsert d p v).map (fun e => e.1) = d.map (fun e => e.1) := by
  rw [dupsert_of_exists _ _ _ h, List.map_map]
  apply List.map_congr_left
  intro e _
  by_cases hep : e.1 = p
  · simp [hep]
  · simp [hep]

theorem keys_dupsert_append (d : Disk) (p : Path) (v : FileData)
    (h : dexists d p = false) :
    (dupsert d p v).map (fun e => e.1) = d.map (fun e => e.1) ++ [p] := by
  rw [dupsert_of_not_exists _ _ _ h, List.map_append]
  rfl

theorem not_mem_keys_of_not_dexists {d : Disk} {p : Path}
    (h : dexists d p = false) : p ∉ d.map (fun e => e.1) := by
  intro hmem
  rw [dexists_iff_mem.mpr hmem] at h
  cases h

theorem nodup_keys_dupsert (d : Disk) (p : Path) (v : FileData)
    (hnod : (d.map (fun e => e.1)).Nodup) :
    ((dupsert d p v).map (fun e => e.1)).Nodup := by
  rcases hd : dexists d p with _ | _
  · rw [keys_dupsert_append _ _ _ hd]
    rw [List.nodup_append]
    exact ⟨hnod, List.nodup_singleton p,
      fun x hx hp => (not_mem_keys_of_not_dexists hd) (by
        rcases List.mem_singleton.mp hp with rfl
        exact hx)⟩
  · rw [keys_dupsert_inplace _ _ _ hd]
    exact hnod

theorem scanOk_dupsert (d : Disk) (p : Path) (v : FileData)
    (hok : scanOkDisk d = true) (hv : entryOk (p, v) = true) :
    scanOkDisk (dupsert d p v) = true := by
  unfold scanOkDisk at hok ⊢
  rcases hd : dexists d p with _ | _
  · rw [dupsert_of_not_exists _ _ _ hd, List.all_append]
    rw [hok]
    simpa using hv
  · rw [dupsert_of_exists _ _ _ hd, List.all_eq_true]
    intro e he
    rcases List.mem_map.mp he with ⟨e0, he0, heq⟩
    subst heq
    by_cases hep : e0.1 = p
    · rw [if_pos hep]
      exact hv
    · rw [if_neg hep]
      exact List.all_eq_true.mp hok e0 he0

theorem dexists_dupsert_mono (d : Disk) (p q : Path) (v : FileData)
    (h : dexists d q = true) : dexists (dupsert d p v) q = true := by
  rcases hd : dexists d p with _ | _
  · rw [dexists_iff_mem, keys_dupsert_append _ _ _ hd]
    exact List.mem_append_left _ (dexists_iff_mem.mp h)
  · rw [dexists_iff_mem, keys_dupsert_inplace _ _ _ hd]
    exact dexists_iff_mem.mp h

theorem dexists_dupsert_other (d : Disk) (p q : Path) (v : FileData)
    (hne : q ≠ p) : dexists (dupsert d p v) q = dexists d q := by
  have hkeys : q ∈ (dupsert d p v).map (fun e => e.1) ↔ q ∈ d.map (fun e => e.1) := by
    rcases hd : dexists d p with _ | _
    · rw [keys_dupsert_append _ _ _ hd, List.mem_append]
      constructor
      · intro h
        rcases h with h | h
        · exact h
        · exact absurd (List.mem_singleton.mp h) hne
      · exact fun h => Or.inl h
    · rw [keys_dupsert_inplace _ _ _ hd]
  rcases hq : dexists d q with _ | _
  · cases hqq : dexists (dupsert d p v) q with
    | false => rfl
    | true =>
      exfalso
      have hmem := hkeys.mp (dexists_iff_mem.mp hqq)
      rw [dexists_iff_mem.mpr hmem] at hq
      cases hq
  · exact dexists_iff_mem.mpr (hkeys.mpr (dexists_iff_mem.mp hq))

theorem winner_dupsert_nonmd (g : String) (d : Disk) (p : Path) (v : FileData)
    (hmd : endsWithMd (pathName p) = false) :
    winner g (dupsert d p v) = winner g d := by
  rcases hd : dexists d p with _ | _
  · rw [dupsert_of_not_exists _ _ _ hd, winner_append_single,
      claimInfo_nonmd g (p, v) hmd, ow_none]
  · rw [dupsert_of_exists _ _ _ hd]
    apply winner_map_congr
    intro e _
    by_cases hep : e.1 = p
    · rw [if_pos hep, claimInfo_nonmd g (p, v) hmd,
        claimInfo_nonmd g e (by rw [hep]; exact hmd)]
    · rw [if_neg hep]

theorem winner_dupsert_fresh_md (g : String) (d : Disk) (p : Path)
    (gid : String) (u : Int) (hmd : endsWithMd (pathName p) = true)
    (hne : dexists d p = false) :
    winner g (dupsert d p (FileData.md (some gid) (some u))) =
      if gid = g then some (p, u) else winner g d := by
  rw [dupsert_of_not_exists _ _ _ hne, winner_append_single,
    claimInfo_md g p gid u hmd]
  by_cases hg : gid = g
  · rw [if_pos hg, if_pos hg, ow_some]
  · rw [if_neg hg, if_neg hg, ow_none]

theorem winner_inplace_update (g : String) (p : Path) (v : FileData) (u' : Int)
    (hv : claimInfo g (p, v) = some (p, u')) :
    ∀ d : Disk, (d.map (fun e => e.1)).Nodup →
      ∀ u : Int, winner g d = some (p, u) →
      winner g (d.map (fun e => if e.1 = p then (p, v) else e)) = some (p, u')
  | [], _, _, h => by cases h
  | e :: rest, hnod, u, h => by
    rw [List.map_cons] at hnod
    have hnod' := List.nodup_cons.mp hnod
    unfold winner at h
    rw [List.map_cons]
    show ow (winner g (rest.map (fun e => if e.1 = p then (p, v) else e)))
      (claimInfo g (if e.1 = p then (p, v) else e)) = some (p, u')
    rcases hr : winner g rest with _ | pr
    · rw [hr, ow_none] at h
      rcases claimInfo_some_shape h with ⟨h1, _, _⟩
      have hep : e.1 = p := h1.symm
      rw [if_pos hep]
      have hmap : rest.map (fun e => if e.1 = p then (p, v) else e) = rest := by
        conv_rhs => rw [← List.map_id rest]
        apply List.map_congr_left
        intro x hx
        have hxp : x.1 ≠ p := by
          intro hc
          rw [← hep] at hc
          exact hnod'.1 (List.mem_map.mpr ⟨x, hx, hc⟩)
        rw [if_neg hxp]
        rfl
      rw [hmap, hr, ow_none]
      exact hv
    · rw [hr, ow_some] at h
      injection h with h'
      subst h'
      have hep : e.1 ≠ p := by
        intro hc
        have := winner_mem g rest p u (by rw [hr])
        rw [← hc] at this
        exact hnod'.1 this
      rw [if_neg hep]
      rw [winner_inplace_update g p v u' hv rest hnod'.2 u (by rw [hr]), ow_some]

theorem winner_dupsert_winner (g : String) (d : Disk) (p : Path) (u u' : Int)
    (hnod : (d.map (fun e => e.1)).Nodup)
    (hw : winner g d = some (p, u))
    (hmd : endsWithMd (pathName p) = true) :
    winner g (dupsert d p (FileData.md (some g) (some u'))) = some (p, u') := by
  have hex : dexists d p = true := dexists_iff_mem.mpr (winner_mem g d p u hw)
  rw [dupsert_of_exists _ _ _ hex]
  exact winner_inplace_update g p (FileData.md (some g) (some u')) u'
    (by rw [claimInfo_md g p g u' hmd, if_pos rfl]) d hnod u hw

theorem winner_dupsert_winner_other (g g' : String) (d : Disk) (p : Path)
    (u u' : Int) (hnod : (d.map (fun e => e.1)).Nodup)
    (hw : winner g d = some (p, u)) (hgg : g' ≠ g) :
    winner g' (dupsert d p (FileData.md (some g) (some u'))) = winner g' d := by
  have hex : dexists d p = true := dexists_iff_mem.mpr (winner_mem g d p u hw)
  rw [dupsert_of_exists _ _ _ hex]
  apply winner_map_congr
  intro e he
  by_cases hep : e.1 = p
  · rw [if_pos hep]
    have hdata : e.2 = FileData.md (some g) (some u) := by
      have : (p, e.2) ∈ d := by
        rw [← hep]
        exact he
      exact winner_entry_data g d hnod p u hw e.2 this
    have hmd : endsWithMd (pathName p) = true := winner_md_name g d p u hw
    rw [claimInfo_md g' p g u' hmd, if_neg (fun hc => hgg hc.symm)]
    have he2 : e = (p, FileData.md (some g) (some u)) := by
      obtain ⟨e1, e2⟩ := e
      dsimp only at hep hdata
      rw [hep, hdata]
    rw [he2, claimInfo_md g' p g u hmd, if_neg (fun hc => hgg hc.symm)]
  · rw [if_neg hep]

/-! ## Idempotency: the downloader and the materializer on a good disk -/

theorem endsWithMd_append_md (s : String) : endsWithMd (s ++ ".md") = true := by
  unfold endsWithMd
  rw [string_data_append]
  have h : (".md").data = ['.', 'm', 'd'] := rfl
  rw [h, List.reverse_append]
  rfl

theorem entryOk_md_ok (p : Path) (g : String) (u : Int)
    (hmd : endsWithMd (pathName p) = true) :
    entryOk (p, FileData.md (some g) (some u)) = true := by
  unfold entryOk
  rw [if_pos hmd]

theorem entryOk_nonmd (e : Path × FileData)
    (hmd : endsWithMd (pathName e.1) = false) : entryOk e = true := by
  unfold entryOk
  rw [if_neg (by simp [hmd])]

theorem dedupeLoop_shape (d : Disk) (stem noteId : String) :
    ∀ (fuel k : Nat) (s0 : String),
      ∃ s, dedupeLoop d stem noteId fuel k [s0 ++ ".md"] = [s ++ ".md"]
  | 0, _, s0 => ⟨s0, rfl⟩
  | fuel + 1, k, s0 => by
    rcases hx : dexists d [s0 ++ ".md"] with _ | _
    · refine ⟨s0, ?_⟩
      unfold dedupeLoop
      rw [hx]
      rfl
    · rcases dedupeLoop_shape d stem noteId fuel (k + 1)
        (stem ++ "." ++ noteId ++ "." ++ natStr k) with ⟨s, hs⟩
      refine ⟨s, ?_⟩
      unfold dedupeLoop
      rw [hx]
      show dedupeLoop d stem noteId fuel (k + 1) [dedupeName stem noteId k] =
        [s ++ ".md"]
      exact hs

theorem build_shape_of_no_local (note : RemoteNote) (dateFormat : Int → String)
    (idx : Index) (d : Disk)
    (h : (alookup idx note.id).bind (fun L => L.path) = none) :
    ∃ s, build_note_unique_path note dateFormat idx d = [s ++ ".md"] := by
  simp only [build_note_unique_path, h]
  exact dedupeLoop_shape d (canonicalStem dateFormat note) note.id
    (d.length + 1) 1 _

theorem downloadOne_disk (env : Env) (noteId : String) (sk : Bool)
    (m : RemoteMedia) (st st' : Disk × List Path × Nat × List Path)
    (h : downloadOne env noteId sk m st = some st') :
    st'.1 = st.1 ∨
      st'.1 = dupsert st.1 (noteMediaFile noteId m)
        (FileData.bytes (m.byteSize.getD 0)) := by
  simp only [downloadOne] at h
  split at h
  · left
    injection h with h'
    rw [← h']
  · split at h
    · cases h
    · right
      injection h with h'
      rw [← h']

theorem downloadGo_disk (env : Env) (noteId : String) (sk : Bool) :
    ∀ (ms : List RemoteMedia) (st st' : Disk × List Path × Nat × List Path),
      downloadGo env noteId sk ms st = some st' →
      (∀ m ∈ ms, endsWithMd (sanitize_filename m.id 135 ++ m.ext) = false) →
      GoodDisk st.1 →
      GoodDisk st'.1 ∧ (∀ g, winner g st'.1 = winner g st.1) ∧
      (∀ q, dexists st.1 q = true → dexists st'.1 q = true) ∧
      (∀ q : Path, q.length = 1 → dexists st'.1 q = dexists st.1 q)
  | [], st, st', h, _, hgood => by
    injection h with h'
    rw [← h']
    exact ⟨hgood, fun _ => rfl, fun _ hq => hq, fun _ _ => rfl⟩
  | m :: rest, st, st', h, hmd, hgood => by
    unfold downloadGo at h
    rcases h1 : downloadOne env noteId sk m st with _ | st1
    · rw [h1] at h; cases h
    · rw [h1] at h
      have hpn : pathName (noteMediaFile noteId m) =
          sanitize_filename m.id 135 ++ m.ext := rfl
      have hm : endsWithMd (pathName (noteMediaFile noteId m)) = false := by
        rw [hpn]
        exact hmd m (by simp)
      have hstep : GoodDisk st1.1 ∧ (∀ g, winner g st1.1 = winner g st.1) ∧
          (∀ q, dexists st.1 q = true → dexists st1.1 q = true) ∧
          (∀ q : Path, q.length = 1 → dexists st1.1 q = dexists st.1 q) := by
        rcases downloadOne_disk env noteId sk m st st1 h1 with he | he
        · rw [he]
          exact ⟨hgood, fun _ => rfl, fun _ hq => hq, fun _ _ => rfl⟩
        · rw [he]
          refine ⟨⟨nodup_keys_dupsert _ _ _ hgood.1,
              scanOk_dupsert _ _ _ hgood.2 (entryOk_nonmd _ hm)⟩,
            fun g => winner_dupsert_nonmd g _ _ _ hm,
            fun q hq => dexists_dupsert_mono _ _ _ _ hq,
            fun q hq1 => dexists_dupsert_other _ _ _ _ ?_⟩
          intro hqe
          rw [hqe] at hq1
          have h3 : (noteMediaFile noteId m).length = 3 := rfl
          omega
      rcases downloadGo_disk env noteId sk rest st1 st' h
        (fun x hx => hmd x (by simp [hx])) hstep.1 with ⟨g1, g2, g3, g4⟩
      exact ⟨g1, fun g => (g2 g).trans (hstep.2.1 g),
        fun q hq => g3 q (hstep.2.2.1 q hq),
        fun q hl => (g4 q hl).trans (hstep.2.2.2 q hl)⟩

theorem materializeNote_disk (cfg : Config) (env : Env) (note : RemoteNote)
    (target : Path) (d : Disk) (c : Counters) (log : RunLog)
    (st' : Disk × Counters × RunLog)
    (h : materializeNote cfg env note target d c log = some st') :
    ∃ r : Disk × List Path × Nat × List Path,
      download_media env note cfg.skip_existing_media d = some r ∧
      st'.1 = dupsert r.1 target (noteFileData cfg note) ∧
      st'.2.1 = { c with downloaded := c.downloaded + r.2.2.1 } ∧
      st'.2.2 = { log with writes := log.writes ++ r.2.2.2 ++ [target] } := by
  unfold materializeNote at h
  rcases hdl : download_media env note cfg.skip_existing_media d with _ | r
  · rw [hdl] at h; cases h
  · rw [hdl] at h
    rcases hw : env.failWrite target with _ | _
    · rw [hw] at h
      refine ⟨r, rfl, ?_, ?_, ?_⟩ <;> (injection h with h'; rw [← h'])
    · rw [hw] at h
      cases h

theorem processNote_eq_skip (cfg : Config) (env : Env) (idx : Index)
    (n : RemoteNote) (d : Disk) (c : Counters) (log : RunLog) (ln : LocalNote)
    (hR : cfg.rename_local = false)
    (hL : alookup idx n.id = some ln)
    (hts : ln.timestamp_updated = some n.updated) :
    processNote cfg env idx n (d, c, log) =
      some (d, { c with skipped := c.skipped + 1 }, log) := by
  rcases hlp : ln.path with _ | lp
  · simp [processNote, hL, hlp, hts]
  · simp [processNote, hL, hlp, hts, hR]

theorem processNote_eq_update_path (cfg : Config) (env : Env) (idx : Index)
    (n : RemoteNote) (d : Disk) (c : Counters) (log : RunLog) (ln : LocalNote)
    (lp : Path) (hR : cfg.rename_local = false)
    (hL : alookup idx n.id = some ln) (hlp : ln.path = some lp)
    (hts : ln.timestamp_updated ≠ some n.updated) :
    processNote cfg env idx n (d, c, log) =
      materializeNote cfg env n lp d { c with updated := c.updated + 1 } log := by
  simp [processNote, hL, hlp, hts, hR]

theorem processNote_eq_update_nopath (cfg : Config) (env : Env) (idx : Index)
    (n : RemoteNote) (d : Disk) (c : Counters) (log : RunLog) (ln : LocalNote)
    (hL : alookup idx n.id = some ln) (hlp : ln.path = none)
    (hts : ln.timestamp_updated ≠ some n.updated) :
    processNote cfg env idx n (d, c, log) =
      materializeNote cfg env n (build_note_unique_path n cfg.date_format idx d)
        d { c with updated := c.updated + 1 } log := by
  simp [processNote, hL, hlp, hts]

theorem processNote_eq_new (cfg : Config) (env : Env) (idx : Index)
    (n : RemoteNote) (d : Disk) (c : Counters) (log : RunLog)
    (hL : alookup idx n.id = none) :
    processNote cfg env idx n (d, c, log) =
      materializeNote cfg env n (build_note_unique_path n cfg.date_format idx d)
        d { c with newNotes := c.newNotes + 1 } log := by
  simp [processNote, hL, LocalNote.ofId]

theorem materialize_fresh_step (cfg : Config) (env : Env) (idx : Index)
    (n : RemoteNote) (d : Disk) (c : Counters) (log : RunLog)
    (st' : Disk × Counters × RunLog)
    (hH : cfg.header = true)
    (hlpn : (alookup idx n.id).bind (fun L => L.path) = none)
    (hmedn : ∀ m ∈ all_note_media n,
      endsWithMd (sanitize_filename m.id 135 ++ m.ext) = false)
    (hgood : GoodDisk d)
    (h : materializeNote cfg env n
      (build_note_unique_path n cfg.date_format idx d) d c log = some st') :
    GoodDisk st'.1 ∧ Settled n st'.1 ∧
      (∀ g, g ≠ n.id → winner g st'.1 = winner g d) := by
  rcases build_shape_of_no_local n cfg.date_format idx d hlpn with ⟨s, hsh⟩
  have hfresh := build_fresh_of_no_local n cfg.date_format idx d hlpn
  rcases materializeNote_disk _ _ _ _ _ _ _ _ h with ⟨r, hdl, hd1, _, _⟩
  obtain ⟨hgood', hwin', _, hlen1⟩ :=
    downloadGo_disk env n.id cfg.skip_existing_media (all_note_media n)
      (d, [], 0, []) r hdl hmedn hgood
  have hfresh' : dexists r.1
      (build_note_unique_path n cfg.date_format idx d) = false := by
    rw [hsh] at hfresh ⊢
    rw [hlen1 [s ++ ".md"] rfl]
    exact hfresh
  have hmd : endsWithMd
      (pathName (build_note_unique_path n cfg.date_format idx d)) = true := by
    rw [hsh]
    exact endsWithMd_append_md s
  have hnfd : noteFileData cfg n = FileData.md (some n.id) (some n.updated) := by
    unfold noteFileData
    rw [hH]
    rfl
  rw [hnfd] at hd1
  refine ⟨⟨?_, ?_⟩, ?_, ?_⟩
  · rw [hd1]
    exact nodup_keys_dupsert _ _ _ hgood'.1
  · rw [hd1]
    exact scanOk_dupsert _ _ _ hgood'.2 (entryOk_md_ok _ _ _ hmd)
  · refine ⟨build_note_unique_path n cfg.date_format idx d, ?_⟩
    rw [hd1, winner_dupsert_fresh_md n.id r.1 _ n.id n.updated hmd hfresh',
      if_pos rfl]
  · intro g hg
    rw [hd1, winner_dupsert_fresh_md g r.1 _ n.id n.updated hmd hfresh',
      if_neg (fun hc => hg hc.symm), hwin' g]

theorem processNote_run1_step (cfg : Config) (env : Env) (idx : Index)
    (d0 : Disk) (n : RemoteNote) (st st' : Disk × Counters × RunLog)
    (hH : cfg.header = true) (hR : cfg.rename_local = false)
    (hwf : WfIdx idx)
    (hpt : pathTs idx n.id = winner n.id d0)
    (hmedn : ∀ m ∈ all_note_media n,
      endsWithMd (sanitize_filename m.id 135 ++ m.ext) = false)
    (hgood : GoodDisk st.1)
    (hwtodo : winner n.id st.1 = winner n.id d0)
    (h : processNote cfg env idx n st = some st') :
    GoodDisk st'.1 ∧ Settled n st'.1 ∧
      (∀ g, g ≠ n.id → winner g st'.1 = winner g st.1) := by
  obtain ⟨d, c, log⟩ := st
  have hgoodd : GoodDisk d := hgood
  rcases hL : alookup idx n.id with _ | ln
  · rw [processNote_eq_new cfg env idx n d c log hL] at h
    exact materialize_fresh_step cfg env idx n d _ log st' hH
      (by rw [hL]; rfl) hmedn hgoodd h
  · rcases hlp : ln.path with _ | lp
    · have hts0 : ln.timestamp_updated = none := by
        rcases alookup_mem hL with ⟨e, hmem, hval, _⟩
        have hiff := hwf e hmem
        rw [hval] at hiff
        exact hiff.mp hlp
      have hts : ln.timestamp_updated ≠ some n.updated := by
        rw [hts0]
        intro hc
        cases hc
      rw [processNote_eq_update_nopath cfg env idx n d c log ln hL hlp hts] at h
      exact materialize_fresh_step cfg env idx n d _ log st' hH
        (by rw [hL]; exact hlp) hmedn hgoodd h
    · have hts0 : ∃ u, ln.timestamp_updated = some u := by
        rcases hu : ln.timestamp_updated with _ | u
        · exfalso
          rcases alookup_mem hL with ⟨e, hmem, hval, _⟩
          have hiff := hwf e hmem
          rw [hval] at hiff
          rw [hiff.mpr hu] at hlp
          cases hlp
        · exact ⟨u, rfl⟩
      rcases hts0 with ⟨u, hu⟩
      have hptv : pathTs idx n.id = some (lp, u) := by
        rw [pathTs_of_lookup hL, hlp, hu]
      have hwin : winner n.id d = some (lp, u) := by
        have h1 : winner n.id d = winner n.id d0 := hwtodo
        rw [h1, ← hpt]
        exact hptv
      by_cases hts : ln.timestamp_updated = some n.updated
      · rw [processNote_eq_skip cfg env idx n d c log ln hR hL hts] at h
        injection h with h'
        rw [← h']
        have huN : u = n.updated := by
          rw [hts] at hu
          injection hu with hu'
          exact hu'.symm
        refine ⟨hgoodd, ⟨lp, ?_⟩, fun g _ => rfl⟩
        rw [← huN]
        exact hwin
      · rw [processNote_eq_update_path cfg env idx n d c log ln lp hR hL hlp hts] at h
        rcases materializeNote_disk _ _ _ _ _ _ _ _ h with ⟨r, hdl, hd1, _, _⟩
        obtain ⟨hgood', hwin', _, _⟩ :=
          downloadGo_disk env n.id cfg.skip_existing_media (all_note_media n)
            (d, [], 0, []) r hdl hmedn hgoodd
        have hwinr : winner n.id r.1 = some (lp, u) := by
          rw [hwin' n.id]
          exact hwin
        have hmd : endsWithMd (pathName lp) = true :=
          winner_md_name n.id r.1 lp u hwinr
        have hnfd : noteFileData cfg n =
            FileData.md (some n.id) (some n.updated) := by
          unfold noteFileData
          rw [hH]
          rfl
        rw [hnfd] at hd1
        refine ⟨⟨?_, ?_⟩, ⟨lp, ?_⟩, ?_⟩
        · rw [hd1]
          exact nodup_keys_dupsert _ _ _ hgood'.1
        · rw [hd1]
          exact scanOk_dupsert _ _ _ hgood'.2 (entryOk_md_ok _ _ _ hmd)
        · rw [hd1]
          exact winner_dupsert_winner n.id r.1 lp u n.updated hgood'.1 hwinr hmd
        · intro g hg
          rw [hd1, winner_dupsert_winner_other n.id g r.1 lp u n.updated
            hgood'.1 hwinr hg, hwin' g]

theorem processAll_run1 (cfg : Config) (env : Env) (idx : Index) (d0 : Disk)
    (hH : cfg.header = true) (hR : cfg.rename_local = false)
    (hwf : WfIdx idx) (hpt : ∀ g, pathTs idx g = winner g d0) :
    ∀ (todo : List RemoteNote) (st st' : Disk × Counters × RunLog),
      (∀ n ∈ todo, ∀ m ∈ all_note_media n,
        endsWithMd (sanitize_filename m.id 135 ++ m.ext) = false) →
      (todo.map (fun n => n.id)).Nodup →
      GoodDisk st.1 →
      (∀ n ∈ todo, winner n.id st.1 = winner n.id d0) →
      processAll cfg env idx todo st = some st' →
      GoodDisk st'.1 ∧ (∀ n ∈ todo, Settled n st'.1) ∧
        (∀ g, (∀ n ∈ todo, g ≠ n.id) → winner g st'.1 = winner g st.1)
  | [], st, st', _, _, hgood, _, h => by
    injection h with h'
    rw [← h']
    exact ⟨hgood, fun n hn => absurd hn (List.not_mem_nil n), fun g _ => rfl⟩
  | n :: rest, st, st', hmed, hnod, hgood, hw, h => by
    unfold processAll at h
    rcases h1 : processNote cfg env idx n st with _ | st1
    · rw [h1] at h; cases h
    · rw [h1] at h
      obtain ⟨hg1, hset1, hpres1⟩ :=
        processNote_run1_step cfg env idx d0 n st st1 hH hR hwf (hpt n.id)
          (hmed n (by simp)) hgood (hw n (by simp)) h1
      rw [List.map_cons] at hnod
      have hnod' := List.nodup_cons.mp hnod
      have hrestw : ∀ m ∈ rest, winner m.id st1.1 = winner m.id d0 := by
        intro m hm
        have hne : m.id ≠ n.id := by
          intro hc
          exact hnod'.1 (by rw [← hc]; exact List.mem_map.mpr ⟨m, hm, rfl⟩)
        rw [hpres1 m.id hne]
        exact hw m (by simp [hm])
      obtain ⟨hg2, hset2, hpres2⟩ :=
        processAll_run1 cfg env idx d0 hH hR hwf hpt rest st1 st'
          (fun x hx => hmed x (by simp [hx])) hnod'.2 hg1 hrestw h
      refine ⟨hg2, ?_, ?_⟩
      · intro m hm
        rcases List.mem_cons.mp hm with rfl | hm'
        · have hnin : ∀ x ∈ rest, m.id ≠ x.id := by
            intro x hx hc
            exact hnod'.1 (by rw [hc]; exact List.mem_map.mpr ⟨x, hx, rfl⟩)
          rcases hset1 with ⟨p, hp⟩
          exact ⟨p, by rw [hpres2 m.id hnin]; exact hp⟩
        · exact hset2 m hm'
      · intro g hg
        rw [hpres2 g (fun x hx => hg x (by simp [hx])), hpres1 g (hg n (by simp))]

theorem processNote_count (cfg : Config) (env : Env) (idx : Index)
    (n : RemoteNote) (st st' : Disk × Counters × RunLog)
    (hR : cfg.rename_local = false)
    (h : processNote cfg env idx n st = some st') :
    st'.2.1.skipped + st'.2.1.updated + st'.2.1.newNotes =
      st.2.1.skipped + st.2.1.updated + st.2.1.newNotes + 1 := by
  obtain ⟨d, c, log⟩ := st
  rcases hL : alookup idx n.id with _ | ln
  · rw [processNote_eq_new cfg env idx n d c log hL] at h
    rcases materializeNote_disk _ _ _ _ _ _ _ _ h with ⟨r, _, _, hc, _⟩
    rw [hc]
    show c.skipped + c.updated + (c.newNotes + 1) =
      c.skipped + c.updated + c.newNotes + 1
    omega
  · by_cases hts : ln.timestamp_updated = some n.updated
    · rw [processNote_eq_skip cfg env idx n d c log ln hR hL hts] at h
      injection h with h'
      rw [← h']
      show c.skipped + 1 + c.updated + c.newNotes =
        c.skipped + c.updated + c.newNotes + 1
      omega
    · rcases hlp : ln.path with _ | lp
      · rw [processNote_eq_update_nopath cfg env idx n d c log ln hL hlp hts] at h
        rcases materializeNote_disk _ _ _ _ _ _ _ _ h with ⟨r, _, _, hc, _⟩
        rw [hc]
        show c.skipped + (c.updated + 1) + c.newNotes =
          c.skipped + c.updated + c.newNotes + 1
        omega
      · rw [processNote_eq_update_path cfg env idx n d c log ln lp hR hL hlp hts] at h
        rcases materializeNote_disk _ _ _ _ _ _ _ _ h with ⟨r, _, _, hc, _⟩
        rw [hc]
        show c.skipped + (c.updated + 1) + c.newNotes =
          c.skipped + c.updated + c.newNotes + 1
        omega

theorem processAll_counts (cfg : Config) (env : Env) (idx : Index)
    (hR : cfg.rename_local = false) :
    ∀ (todo : List RemoteNote) (st st' : Disk × Counters × RunLog),
      processAll cfg env idx todo st = some st' →
      st'.2.1.skipped + st'.2.1.updated + st'.2.1.newNotes =
        st.2.1.skipped + st.2.1.updated + st.2.1.newNotes + todo.length
  | [], st, st', h => by
    injection h with h'
    rw [← h']
    rfl
  | n :: rest, st, st', h => by
    unfold processAll at h
    rcases h1 : processNote cfg env idx n st with _ | st1
    · rw [h1] at h; cases h
    · rw [h1] at h
      have hc1 := processNote_count cfg env idx n st st1 hR h1
      have hc2 := processAll_counts cfg env idx hR rest st1 st' h
      rw [hc2, hc1]
      simp only [List.length_cons]
      omega

theorem processAll_allskip (cfg : Config) (env : Env) (idx : Index)
    (hR : cfg.rename_local = false) :
    ∀ (todo : List RemoteNote) (d : Disk) (c : Counters) (log : RunLog),
      (∀ n ∈ todo, ∃ L, alookup idx n.id = some L ∧
        L.timestamp_updated = some n.updated) →
      processAll cfg env idx todo (d, c, log) =
        some (d, { c with skipped := c.skipped + todo.length }, log)
  | [], d, c, log, _ => by
    show some (d, c, log) = some (d, { c with skipped := c.skipped + 0 }, log)
    rfl
  | n :: rest, d, c, log, hall => by
    rcases hall n (by simp) with ⟨L, hL, hts⟩
    unfold processAll
    rw [processNote_eq_skip cfg env idx n d c log L hR hL hts]
    show processAll cfg env idx rest
        (d, { c with skipped := c.skipped + 1 }, log) =
      some (d, { c with skipped := c.skipped + (n :: rest).length }, log)
    rw [processAll_allskip cfg env idx hR rest d _ log
      (fun x hx => hall x (by simp [hx]))]
    have he : ({ c with skipped := c.skipped + 1 } : Counters).skipped +
        rest.length = c.skipped + (n :: rest).length := by
      show c.skipped + 1 + rest.length = c.skipped + (n :: rest).length
      simp only [List.length_cons]
      omega
    rw [he]

theorem keys_aupsert_inplace {α : Type} (m : List (String × α)) (k : String)
    (v : α) (h : (alookup m k).isSome = true) :
    (aupsert m k v).map (fun e => e.1) = m.map (fun e => e.1) := by
  unfold aupsert
  rw [if_pos h, List.map_map]
  apply List.map_congr_left
  intro e _
  by_cases hek : e.1 = k
  · simp [hek]
  · simp [hek]

theorem keys_aupsert_append {α : Type} (m : List (String × α)) (k : String)
    (v : α) (h : (alookup m k).isSome = false) :
    (aupsert m k v).map (fun e => e.1) = m.map (fun e => e.1) ++ [k] := by
  unfold aupsert
  rw [h]
  show (m ++ [(k, v)]).map (fun e => e.1) = m.map (fun e => e.1) ++ [k]
  rw [List.map_append]
  rfl

theorem alookup_none_not_mem {α : Type} {m : List (String × α)} {k : String}
    (h : alookup m k = none) : k ∉ m.map (fun e => e.1) := by
  intro hmem
  rcases List.mem_map.mp hmem with ⟨e, he, hek⟩
  rcases hf : m.find? (fun e => e.1 = k) with _ | e0
  · have := List.find?_eq_none.mp hf e he
    simp [hek] at this
  · unfold alookup at h
    rw [hf] at h
    cases h

theorem mem_aupsert {α : Type} {m : List (String × α)} {k : String} {v : α}
    {e : String × α} (he : e ∈ aupsert m k v) : e = (k, v) ∨ e ∈ m := by
  unfold aupsert at he
  split at he
  · rcases List.mem_map.mp he with ⟨e0, he0, heq⟩
    have heq' : (if e0.1 = k then (k, v) else e0) = e := heq
    by_cases hek : e0.1 = k
    · rw [if_pos hek] at heq'
      exact Or.inl heq'.symm
    · rw [if_neg hek] at heq'
      rw [← heq']
      exact Or.inr he0
  · rcases List.mem_append.mp he with h | h
    · exact Or.inr h
    · exact Or.inl (List.mem_singleton.mp h)

theorem dedup_keys_step (acc : List (String × RemoteNote)) (n : RemoteNote)
    (hnod : (acc.map (fun e => e.1)).Nodup) :
    ((aupsert acc n.id n).map (fun e => e.1)).Nodup := by
  rcases hs : alookup acc n.id with _ | w
  · rw [keys_aupsert_append acc n.id n (by rw [hs]; rfl)]
    rw [List.nodup_append]
    refine ⟨hnod, List.nodup_singleton _, fun x hx hxk => ?_⟩
    rcases List.mem_singleton.mp hxk with rfl
    exact alookup_none_not_mem hs hx
  · rw [keys_aupsert_inplace acc n.id n (by rw [hs]; rfl)]
    exact hnod

theorem dedupFold_inv (P : RemoteNote → Prop) :
    ∀ (notes : List RemoteNote) (acc : List (String × RemoteNote)),
      (acc.map (fun e => e.1)).Nodup →
      (∀ e ∈ acc, e.2.id = e.1 ∧ P e.2) →
      (∀ n ∈ notes, P n) →
      (((notes.foldl (fun a n => aupsert a n.id n) acc).map
          (fun e => e.1)).Nodup ∧
        ∀ e ∈ notes.foldl (fun a n => aupsert a n.id n) acc,
          e.2.id = e.1 ∧ P e.2)
  | [], _, hnod, hcoh, _ => ⟨hnod, hcoh⟩
  | n :: rest, acc, hnod, hcoh, hP => by
    have hcoh' : ∀ e ∈ aupsert acc n.id n, e.2.id = e.1 ∧ P e.2 := by
      intro e he
      rcases mem_aupsert he with rfl | he'
      · exact ⟨rfl, hP n (by simp)⟩
      · exact hcoh e he'
    exact dedupFold_inv P rest (aupsert acc n.id n)
      (dedup_keys_step acc n hnod) hcoh' (fun x hx => hP x (by simp [hx]))

theorem dedupById_props (P : RemoteNote → Prop) (notes : List RemoteNote)
    (hP : ∀ n ∈ notes, P n) :
    ((dedupById notes).map (fun n => n.id)).Nodup ∧
      ∀ n ∈ dedupById notes, P n := by
  obtain ⟨hnod, hcoh⟩ := dedupFold_inv P notes [] (by simp) (by simp) hP
  have hkey : (dedupById notes).map (fun n => n.id) =
      (notes.foldl (fun a n => aupsert a n.id n) []).map (fun e => e.1) := by
    unfold dedupById
    rw [List.map_map]
    exact List.map_congr_left (fun e he => (hcoh e he).1)
  constructor
  · rw [hkey]
    exact hnod
  · intro n hn
    unfold dedupById at hn
    rcases List.mem_map.mp hn with ⟨e, he, heq⟩
    rw [← heq]
    exact (hcoh e he).2

theorem main_run1 (cfg : Config) (env : Env) (root : String)
    (remote : List RemoteNote) (d0 : Disk) (res1 : RunResult)
    (hH : cfg.header = true) (hD : cfg.delete_local = false)
    (hR : cfg.rename_local = false)
    (hgood : GoodDisk d0) (hmed : MediaNamesOk remote)
    (h1 : main cfg env root remote d0 = some res1) :
    GoodDisk res1.disk ∧
    (∀ n ∈ dedupById remote, Settled n res1.disk) ∧
    res1.counters.skipped + res1.counters.updated + res1.counters.newNotes =
      (dedupById remote).length := by
  rcases hscan : index_existing_files root d0 with _ | pr
  · simp only [main, hscan] at h1
    cases h1
  · obtain ⟨idx, sum⟩ := pr
    rcases delete_disabled_noop idx (dedupById remote) d0 with ⟨reps, hdel⟩
    simp only [main, hscan, hD, hdel] at h1
    split at h1
    · cases h1
    · rename_i d1 c1 log1 hpa
      injection h1 with h1'
      subst h1'
      unfold index_existing_files at hscan
      have hwf : WfIdx idx :=
        scanGo_wf root d0 ([], Summary.init) (idx, sum) hscan WfIdx_nil
      have hpt : ∀ g, pathTs idx g = winner g d0 := by
        intro g
        have hh : pathTs idx g = ow (winner g d0) none :=
          scanGo_pathTs root d0 ([], Summary.init) (idx, sum) hscan g
        rw [ow_right_none] at hh
        exact hh
      obtain ⟨hnodid, hmed'⟩ := dedupById_props
        (fun n => ∀ m ∈ all_note_media n,
          endsWithMd (sanitize_filename m.id 135 ++ m.ext) = false)
        remote hmed
      have hpa' : processAll cfg env idx (dedupById remote)
          (d0, Counters.init, ⟨[], [], []⟩) = some (d1, c1, log1) := hpa
      obtain ⟨hg, hs, _⟩ := processAll_run1 cfg env idx d0 hH hR hwf hpt
        (dedupById remote) (d0, Counters.init, ⟨[], [], []⟩) (d1, c1, log1)
        hmed' hnodid hgood (fun n _ => rfl) hpa'
      have hc : c1.skipped + c1.updated + c1.newNotes =
          0 + 0 + 0 + (dedupById remote).length :=
        processAll_counts cfg env idx hR (dedupById remote) _ _ hpa'
      refine ⟨hg, hs, ?_⟩
      show c1.skipped + c1.updated + c1.newNotes = (dedupById remote).length
      omega

theorem main_run2 (cfg : Config) (env : Env) (root : String)
    (remote : List RemoteNote) (d1 : Disk)
    (hD : cfg.delete_local = false) (hR : cfg.rename_local = false)
    (hgood : GoodDisk d1)
    (hset : ∀ n ∈ dedupById remote, Settled n d1) :
    ∃ res2, main cfg env root remote d1 = some res2 ∧
      res2.disk = d1 ∧ res2.log.writes = [] ∧ res2.log.renames = [] ∧
      res2.log.unlinks = [] ∧
      res2.counters.skipped = (dedupById remote).length := by
  obtain ⟨st2, hscan⟩ := scanGo_total root d1 ([], Summary.init) hgood.2
  obtain ⟨idx2, sum2⟩ := st2
  have hpt2 : ∀ g, pathTs idx2 g = winner g d1 := by
    intro g
    have hh : pathTs idx2 g = ow (winner g d1) none :=
      scanGo_pathTs root d1 ([], Summary.init) (idx2, sum2) hscan g
    rw [ow_right_none] at hh
    exact hh
  have hall : ∀ n ∈ dedupById remote, ∃ L, alookup idx2 n.id = some L ∧
      L.timestamp_updated = some n.updated := by
    intro n hn
    rcases hset n hn with ⟨p, hp⟩
    have hptn : pathTs idx2 n.id = some (p, n.updated) := by
      rw [hpt2 n.id]
      exact hp
    rcases pathTs_some_elim hptn with ⟨L, hL, _, hts⟩
    exact ⟨L, hL, hts⟩
  rcases delete_disabled_noop idx2 (dedupById remote) d1 with ⟨reps, hdel⟩
  have hpa := processAll_allskip cfg env idx2 hR (dedupById remote) d1
    Counters.init ⟨[], [], []⟩ hall
  refine ⟨⟨{ ({ Counters.init with
        skipped := Counters.init.skipped + (dedupById remote).length } : Counters)
        with deletedNotes := 0, deletedMedia := 0 },
      d1, idx2, sum2, ⟨[], [], []⟩, reps⟩, ?_, rfl, rfl, rfl, rfl, ?_⟩
  · simp only [main, index_existing_files, hscan, hD, hdel]
    rw [hpa]
  · show Counters.init.skipped + (dedupById remote).length =
      (dedupById remote).length
    show 0 + (dedupById remote).length = (dedupById remote).length
    omega

/-- C1 counterexample to the claim as stated ("for every configuration"):
with the metadata header disabled, the files a run writes carry no
identifier, so the next scan indexes nothing; the second run then treats
every note as new, writes a dedupe-suffixed copy of each note file, and
skips nothing — the claimed zero-write second run and the skip-count
identity both fail. -/
theorem main_idempotency_counterexample :
    ∃ res1, main fxCfgNoHeader benignEnv "r" [fxNoteX] [] = some res1 ∧
      res1.counters.skipped + res1.counters.updated +
        res1.counters.newNotes = 1 ∧
      (main fxCfgNoHeader benignEnv "r" [fxNoteX] res1.disk).map
          (fun r => (r.log.writes.isEmpty, r.counters.skipped)) =
        some (false, 0) := by
  refine ⟨⟨⟨0, 0, 1, 0, 0, 0⟩, [(["d - t.md"], FileData.md none none)], [],
      ⟨0, 0, 0, 0⟩, ⟨[["d - t.md"]], [], []⟩, []⟩, rfl, rfl, ?_⟩
  rfl

/-- C1 (amended): the sync pass is idempotent for the header-enabled,
deletion-disabled, rename-disabled configuration.  If the first run
completes on a disk whose paths are distinct and scannable, and no media
extension produces a markdown-looking filename, then a second run on the
resulting disk completes, changes nothing on disk, performs zero file
writes, zero renames and zero deletions, and its skipped count equals the
first run's skipped + updated + new count: every note is skipped. -/
theorem main_idempotent (cfg : Config) (env : Env) (root : String)
    (remote : List RemoteNote) (d0 : Disk) (res1 : RunResult)
    (hH : cfg.header = true) (hD : cfg.delete_local = false)
    (hR : cfg.rename_local = false)
    (hgood : GoodDisk d0) (hmed : MediaNamesOk remote)
    (h1 : main cfg env root remote d0 = some res1) :
    ∃ res2, main cfg env root remote res1.disk = some res2 ∧
      res2.disk = res1.disk ∧ res2.log.writes = [] ∧
      res2.log.renames = [] ∧ res2.log.unlinks = [] ∧
      res2.counters.skipped =
        res1.counters.skipped + res1.counters.updated +
          res1.counters.newNotes := by
  obtain ⟨hg1, hs1, hc1⟩ :=
    main_run1 cfg env root remote d0 res1 hH hD hR hgood hmed h1
  obtain ⟨res2, hm2, hd2, hw2, hr2, hu2, hsk2⟩ :=
    main_run2 cfg env root remote res1.disk hD hR hg1 hs1
  exact ⟨res2, hm2, hd2, hw2, hr2, hu2, by rw [hsk2, hc1]⟩

/-- The result of the first witness run: one new note written with its
header at the canonical path. -/
def fxRes1 : RunResult :=
  ⟨⟨0, 0, 1, 0, 0, 0⟩, [(["d - t.md"], FileData.md (some "X") (some 5))], [],
    ⟨0, 0, 0, 0⟩, ⟨[["d - t.md"]], [], []⟩, []⟩

theorem main_idempotent_witness :
    GoodDisk ([] : Disk) ∧ MediaNamesOk [fxNoteX] ∧
      ∃ res2, main fxCfg benignEnv "r" [fxNoteX] fxRes1.disk = some res2 ∧
        res2.disk = fxRes1.disk ∧ res2.log.writes = [] ∧
        res2.log.renames = [] ∧ res2.log.unlinks = [] ∧
        res2.counters.skipped = fxRes1.counters.skipped +
          fxRes1.counters.updated + fxRes1.counters.newNotes :=
  ⟨⟨by decide, by rfl⟩,
   (by intro n hn m hm
       rcases List.mem_singleton.mp hn with rfl
       cases hm),
   main_idempotent fxCfg benignEnv "r" [fxNoteX] [] fxRes1 rfl rfl rfl
     ⟨by decide, by rfl⟩
     (by intro n hn m hm
         rcases List.mem_singleton.mp hn with rfl
         cases hm)
     (by rfl)⟩

end KeepExporter
